import Mathlib

/-!
# AgentBoard websocket hub

A shallow embedding of `backend/websocket/hub.go`: the hub's registry, its
bounded inbound queue, the per-client outbound channels, the three cases of the
`Hub.Run` select loop and the two pumps of a client, followed by the
properties proved about them. The status validation of the task handler
`TransitionTask` has its own section, in the namespace `Handlers`.

Modelling conventions

* A `*Client` pointer is a `ClientId`; the `Client` values the pointers refer
  to live in `Hub.heap`. Every client owns its own `Send` channel, a buffered
  channel made by `make`, and its `Subscriptions` map is allocated.
* A Go channel is its buffer, its capacity and its closed flag. Sending on a
  closed channel and closing a closed channel panic; a panic is `none`.
* `h.broadcast` is created in `NewHub` and closed nowhere, so its state is a
  buffer and a capacity only.
* `h.unregister` is unbuffered: a sender blocks until `Run` receives. The
  blocked senders are the list `Hub.unregister`; its order carries no meaning.
* `h.clients` is a Go map: its keys are a list without duplicates, whose order
  stands for the order in which one `range` loop visits them.
* Each case of the `Run` loop, each call of `Broadcast` and each wake-up of a
  pump is one atomic step; an execution is a list of steps.
* `json.Marshal` and `time.Now` belong to the Go library: the encoder is a
  parameter `marshal`, the clock reading is an argument `now`.
* Logging, the ping ticker and the read deadlines are not modelled.
-/

namespace Websocket

/-- A `[]byte` value. -/
abbrev Frame := List Nat

/-- Identity of a `*Client`. -/
abbrev ClientId := Nat

/-- Message represents a WebSocket message; `P` is the dynamic payload type. -/
structure Message (P : Type) where
  MsgType : String
  Payload : P
  Timestamp : Nat

/-- A Go channel of element type `α`. -/
structure Chan (α : Type) where
  buf : List α
  cap : Nat
  closed : Bool

/-- Outcome of a `select { case ch <- x: default: }`. -/
inductive SendResult (α : Type) where
  | sent (ch : Chan α)
  | full
  | panicked

/-- The channel after `x` was enqueued at the tail of its buffer. -/
def Chan.push {α : Type} (ch : Chan α) (x : α) : Chan α :=
  { ch with buf := ch.buf ++ [x] }

/-- Non-blocking send: panics on a closed channel, enqueues at the tail when
the buffer has room, and otherwise takes the `default` branch. -/
def Chan.trySend {α : Type} (ch : Chan α) (x : α) : SendResult α :=
  if ch.closed then SendResult.panicked
  else if ch.buf.length < ch.cap then SendResult.sent (ch.push x)
  else SendResult.full

/-- The builtin `close(ch)`: panics when the channel is already closed. -/
def Chan.close {α : Type} (ch : Chan α) : Option (Chan α) :=
  if ch.closed then none else some { ch with closed := true }

/-- Outcome of a receive `<-ch`. -/
inductive RecvResult (α : Type) where
  | value (x : α) (ch : Chan α)
  | closedEmpty
  | wouldBlock

/-- Receive: the head of the buffer if there is one (also on a closed
channel), the zero value on a closed and drained channel, and otherwise the
receiver would block. -/
def Chan.recv {α : Type} (ch : Chan α) : RecvResult α :=
  match ch.buf with
  | x :: rest => RecvResult.value x { ch with buf := rest }
  | [] => if ch.closed then RecvResult.closedEmpty else RecvResult.wouldBlock

/-- Client represents a connected WebSocket client. `Subscriptions` holds the
keys of the `map[string]bool`; `Conn` holds the text messages written to the
connection so far, oldest first. -/
structure Client where
  Send : Chan Frame
  Subscriptions : List String
  Conn : List Frame

/-- Hub maintains active clients and broadcasts messages. `clients` holds the
keys of the `map[*Client]bool` in the order one iteration visits them. -/
structure Hub (P : Type) where
  clients : List ClientId
  broadcast : List (Message P)
  broadcastCap : Nat
  unregister : List ClientId
  heap : ClientId → Client

/-- NewHub creates a new WebSocket hub; `heap` holds the clients that the
connection handler allocates. -/
def NewHub {P : Type} (heap : ClientId → Client) : Hub P :=
  { clients := []
    broadcast := []
    broadcastCap := 256
    unregister := []
    heap := heap }

/-- Broadcast sends a typed message to all connected clients: it builds the
message and tries a non-blocking send on `h.broadcast`. -/
def Broadcast {P : Type} (h : Hub P) (msgType : String) (payload : P) (now : Nat) : Hub P :=
  let message : Message P := { MsgType := msgType, Payload := payload, Timestamp := now }
  if h.broadcast.length < h.broadcastCap then
    { h with broadcast := h.broadcast ++ [message] }
  else h

/-- Replace the `Send` channel of client `c` in the heap. -/
def setSend (heap : ClientId → Client) (c : ClientId) (ch : Chan Frame) : ClientId → Client :=
  fun d => if d = c then { heap c with Send := ch } else heap d

/-- The `register` case of `Hub.Run`: `h.clients[client] = true`. -/
def runRegister {P : Type} (c : ClientId) (h : Hub P) : Hub P :=
  { h with clients := if c ∈ h.clients then h.clients else h.clients ++ [c] }

/-- The `unregister` case of `Hub.Run`: one blocked sender of `c` is released;
if `c` is in the registry it is deleted and its `Send` channel is closed. -/
def runUnregister {P : Type} (c : ClientId) (h : Hub P) : Option (Hub P) :=
  let h1 := { h with unregister := h.unregister.erase c }
  if c ∈ h.clients then
    match (h.heap c).Send.close with
    | none => none
    | some ch => some { h1 with clients := h.clients.erase c, heap := setSend h.heap c ch }
  else some h1

/-- The loop `for client := range h.clients` of the `broadcast` case, over the
iteration order `cs`: a non-blocking send of `data` per client, and on the
`default` branch a goroutine that will send the client on `h.unregister`. -/
def fanOut {P : Type} (data : Frame) : List ClientId → Hub P → Option (Hub P)
  | [], h => some h
  | c :: cs, h =>
    match (h.heap c).Send.trySend data with
    | SendResult.sent ch => fanOut data cs { h with heap := setSend h.heap c ch }
    | SendResult.full => fanOut data cs { h with unregister := h.unregister ++ [c] }
    | SendResult.panicked => none

/-- The `broadcast` case of `Hub.Run`: dequeue one message, marshal it, and
fan the bytes out; a marshalling error drops the message. With an empty
inbound queue the case is not ready and nothing happens. -/
def runBroadcast {P : Type} (marshal : Message P → Option Frame) (h : Hub P) : Option (Hub P) :=
  match h.broadcast with
  | [] => some h
  | message :: rest =>
    match marshal message with
    | none => some { h with broadcast := rest }
    | some data => fanOut data h.clients { h with broadcast := rest }

/-- A value produced by `encoding/json` when decoding into `interface{}`. -/
inductive JSON where
  | null
  | bool (b : Bool)
  | number (n : Int)
  | string (s : String)
  | array (xs : List JSON)
  | object (kvs : List (String × JSON))

/-- The type assertion `v.(string)` on the result of a map lookup. -/
def asString : Option JSON → Option String
  | some (JSON.string s) => some s
  | _ => none

/-- The body of the `ReadPump` loop after a successful `ReadJSON` into
`msg map[string]interface{}`, on the key set `subs` of `c.Subscriptions`. -/
def handleFrame (subs : List String) (msg : List (String × JSON)) : List String :=
  match asString (msg.lookup "type") with
  | some msgType =>
    if msgType = "subscribe" then
      match asString (msg.lookup "id") with
      | some id => if id ∈ subs then subs else subs ++ [id]
      | none => subs
    else if msgType = "unsubscribe" then
      match asString (msg.lookup "id") with
      | some id => subs.filter (fun t => t ≠ id)
      | none => subs
    else subs
  | none => subs

/-- One iteration of the `ReadPump` loop on the subscription set: `none` is a
`ReadJSON` error, which breaks the loop; the flag tells whether the loop
continues. -/
def readPumpIter (subs : List String) (input : Option (List (String × JSON))) :
    List String × Bool :=
  match input with
  | none => (subs, false)
  | some msg => (handleFrame subs msg, true)

/-- Replace the subscription set of client `c` in the heap. -/
def setSubs (heap : ClientId → Client) (c : ClientId) (subs : List String) : ClientId → Client :=
  fun d => if d = c then { heap c with Subscriptions := subs } else heap d

/-- One iteration of `ReadPump` of client `c` on the hub: a decoded frame
updates the subscription set of `c`; a read error ends the pump, whose deferred
function sends `c` on `h.unregister`. -/
def readPumpStep {P : Type} (c : ClientId) (input : Option (List (String × JSON))) (h : Hub P) :
    Hub P :=
  match input with
  | none => { h with unregister := h.unregister ++ [c] }
  | some msg => { h with heap := setSubs h.heap c (handleFrame (h.heap c).Subscriptions msg) }

/-- The inner loop of `WritePump`, `for i := 0; i < n; i++`: each round writes
a newline and then the next value received from the channel. The result holds
the channel, the bytes handed to the writer and the number of receives that
found the channel closed and drained; `none` means a receive blocks. -/
def drainLoop : Nat → Chan Frame → Frame → Nat → Option (Chan Frame × Frame × Nat)
  | 0, ch, w, z => some (ch, w, z)
  | n + 1, ch, w, z =>
    match ch.recv with
    | RecvResult.value m ch1 => drainLoop n ch1 (w ++ [10] ++ m) z
    | RecvResult.closedEmpty => drainLoop n ch (w ++ [10]) (z + 1)
    | RecvResult.wouldBlock => none

/-- Outcome of one pass through the `case message, ok := <-c.Send` branch of
`WritePump`. -/
inductive WakeResult where
  | notReady
  | closeSent
  | writerFailed (cl : Client)
  | blocked
  | wrote (cl : Client) (bytes : Frame) (nilReads : Nat) (running : Bool)

/-- One wake-up of `WritePump` on the `Send` channel: `nextWriterErr` and
`closeErr` tell whether `c.Conn.NextWriter` and `w.Close` fail. -/
def writePumpWake (cl : Client) (nextWriterErr closeErr : Bool) : WakeResult :=
  match cl.Send.recv with
  | RecvResult.wouldBlock => WakeResult.notReady
  | RecvResult.closedEmpty => WakeResult.closeSent
  | RecvResult.value message ch =>
    if nextWriterErr then WakeResult.writerFailed { cl with Send := ch }
    else
      match drainLoop ch.buf.length ch message 0 with
      | none => WakeResult.blocked
      | some (ch1, w, z) =>
        WakeResult.wrote
          { cl with Send := ch1, Conn := if closeErr then cl.Conn else cl.Conn ++ [w] }
          w z (!closeErr)

/-- One wake-up of the `WritePump` of client `c` on the hub, with a working
connection. -/
def writePumpStep {P : Type} (c : ClientId) (h : Hub P) : Hub P :=
  match writePumpWake (h.heap c) false false with
  | WakeResult.wrote cl _ _ _ => { h with heap := fun d => if d = c then cl else h.heap d }
  | _ => h

/-- One atomic step of the system around the hub. -/
inductive Step (P : Type) where
  | register (c : ClientId)
  | unregister (c : ClientId)
  | broadcast
  | publish (msgType : String) (payload : P) (now : Nat)
  | writePump (c : ClientId)
  | readFrame (c : ClientId) (input : Option (List (String × JSON)))

/-- Effect of one step; `none` is a panic of the `Run` goroutine. -/
def step {P : Type} (marshal : Message P → Option Frame) : Step P → Hub P → Option (Hub P)
  | Step.register c, h => some (runRegister c h)
  | Step.unregister c, h => runUnregister c h
  | Step.broadcast, h => runBroadcast marshal h
  | Step.publish msgType payload now, h => some (Broadcast h msgType payload now)
  | Step.writePump c, h => some (writePumpStep c h)
  | Step.readFrame c input, h => some (readPumpStep c input h)

/-- Effect of a sequence of steps, first to last. -/
def run {P : Type} (marshal : Message P → Option Frame) : List (Step P) → Hub P → Option (Hub P)
  | [], h => some h
  | st :: rest, h =>
    match step marshal st h with
    | none => none
    | some h1 => run marshal rest h1

/-- Whether the non-blocking send on an open channel finds room. -/
def Chan.hasRoom {α : Type} (ch : Chan α) : Bool := decide (ch.buf.length < ch.cap)

/-- The heap after the frame `data` was appended to the `Send` queue of every
client of `cs` that has room. -/
def deliver (data : Frame) (cs : List ClientId) (heap : ClientId → Client) : ClientId → Client :=
  fun d =>
    if d ∈ cs ∧ (heap d).Send.hasRoom = true then { heap d with Send := (heap d).Send.push data }
    else heap d

/-- The clients of `cs` whose `Send` queue is full. -/
def congested (cs : List ClientId) (heap : ClientId → Client) : List ClientId :=
  cs.filter (fun c => !(heap c).Send.hasRoom)

/-- The message `Hub.Broadcast` builds from its arguments and the clock. -/
def toMessage {P : Type} (p : String × P × Nat) : Message P :=
  { MsgType := p.1, Payload := p.2.1, Timestamp := p.2.2 }

/-- Successive calls of `Hub.Broadcast`, one per element of `pubs`, each given
as event type, payload and clock reading. -/
def publishAll {P : Type} (h : Hub P) (pubs : List (String × P × Nat)) : Hub P :=
  pubs.foldl (fun g p => Broadcast g p.1 p.2.1 p.2.2) h

/-- The clients registered by a sequence of steps, in order. -/
def registrations {P : Type} : List (Step P) → List ClientId
  | [] => []
  | Step.register c :: rest => c :: registrations rest
  | _ :: rest => registrations rest

/-- The bytes of one network write of `WritePump` that carries the messages
of `batch`: the first message, then a newline and the message for each other
one. -/
def wireOf : List Frame → Frame
  | [] => []
  | m :: ms => m ++ (ms.map (fun x => 10 :: x)).flatten

/-- The messages that the calls of `Broadcast` among `steps` put on the inbound
queue, in order: a call that finds the queue full contributes nothing. -/
def accepted {P : Type} (marshal : Message P → Option Frame) :
    List (Step P) → Hub P → List (Message P)
  | [], _ => []
  | st :: rest, h =>
    (match st with
      | Step.publish msgType payload now =>
        if h.broadcast.length < h.broadcastCap then [toMessage (msgType, payload, now)] else []
      | _ => []) ++
    (match step marshal st h with
      | some h1 => accepted marshal rest h1
      | none => [])

/-- Whether the queue of client `c` has room at every fan-out of `steps` that
sends a frame. -/
def hasRoomAlways {P : Type} (marshal : Message P → Option Frame) (c : ClientId) :
    List (Step P) → Hub P → Bool
  | [], _ => true
  | st :: rest, h =>
    (match st with
      | Step.broadcast =>
        (match h.broadcast with
          | [] => true
          | message :: _ => (marshal message).isNone || (h.heap c).Send.hasRoom)
      | _ => true) &&
    (match step marshal st h with
      | some h1 => hasRoomAlways marshal c rest h1
      | none => true)

/-- Whether `steps` leave the inbound queue empty: `Run` has processed every
accepted publish. -/
def allProcessed {P : Type} (marshal : Message P → Option Frame) (steps : List (Step P))
    (h : Hub P) : Bool :=
  match run marshal steps h with
  | some h1 => h1.broadcast.isEmpty
  | none => false

/-- Publishes, fan-outs and writer wake-ups: the steps that leave the registry
alone. -/
def Step.isTraffic {P : Type} : Step P → Bool
  | Step.broadcast => true
  | Step.publish _ _ _ => true
  | Step.writePump _ => true
  | _ => false

/-- Whether the step is a wake-up of the `WritePump` of client `c`. -/
def Step.drains {P : Type} (c : ClientId) : Step P → Bool
  | Step.writePump d => decide (d = c)
  | _ => false

/-- The messages built by the calls of `Broadcast` among `steps`, in order. -/
def published {P : Type} : List (Step P) → List (Message P)
  | [] => []
  | Step.publish msgType payload now :: rest => toMessage (msgType, payload, now) :: published rest
  | _ :: rest => published rest

/-- An encoder for the examples: payload `0` cannot be encoded, any other
message is encoded as its payload followed by its timestamp. -/
def sampleMarshal : Message Nat → Option Frame :=
  fun m => if m.Payload = 0 then none else some [m.Payload, m.Timestamp]

/-- Clients for the examples: client `1` has an empty queue of capacity 2,
client `2` has a full queue of capacity 1, every other client has an empty
queue of capacity 3. -/
def sampleHeap : ClientId → Client :=
  fun c =>
    if c = 1 then { Send := { buf := [], cap := 2, closed := false }, Subscriptions := [], Conn := [] }
    else if c = 2 then
      { Send := { buf := [[7]], cap := 1, closed := false }, Subscriptions := ["team-1"], Conn := [] }
    else { Send := { buf := [], cap := 3, closed := false }, Subscriptions := [], Conn := [] }

/-- A hub for the examples: clients `1` and `2` are registered and one
message waits in the inbound queue. -/
def sampleHub : Hub Nat :=
  { clients := [1, 2]
    broadcast := [{ MsgType := "task_created", Payload := 5, Timestamp := 100 }]
    broadcastCap := 256
    unregister := []
    heap := sampleHeap }

/-- A hub for the examples: clients `3` and `2` are registered and the inbound
queue is empty. -/
def sampleIdleHub : Hub Nat :=
  { clients := [3, 2]
    broadcast := []
    broadcastCap := 256
    unregister := []
    heap := sampleHeap }

/-- Steps for the examples: four publishes, each processed at once, with one
wake-up of the writer of client `3` after the second. -/
def sampleOverflowSteps : List (Step Nat) :=
  [Step.publish "e1" 5 100, Step.broadcast, Step.publish "e2" 6 101, Step.broadcast,
    Step.writePump 3, Step.publish "e3" 7 102, Step.broadcast, Step.publish "e4" 8 103,
    Step.broadcast]

/-- The example hub after client `1` sent a subscribe frame for `team-9`. -/
def sampleSubscribedHub : Hub Nat :=
  readPumpStep 1 (some [("type", JSON.string "subscribe"), ("id", JSON.string "team-9")])
    sampleHub

/-- A hub for the examples: clients `1` and `2` are registered; a message that
cannot be encoded waits in the inbound queue before one that can. -/
def sampleFailingHub : Hub Nat :=
  { clients := [1, 2]
    broadcast := [{ MsgType := "task_updated", Payload := 0, Timestamp := 99 },
      { MsgType := "task_created", Payload := 5, Timestamp := 100 }]
    broadcastCap := 256
    unregister := []
    heap := sampleHeap }

end Websocket

/-!
# Task handlers

The status validation of `TransitionTask` in `backend/handlers/tasks.go`. The
decoded request body gives the requested status; the row read from the `tasks`
table gives the current status.
-/

namespace Handlers

/-- The map literal `validTransitions` of `TransitionTask`. -/
def validTransitions : List (String × List String) :=
  [("todo", ["progress", "backlog"]),
   ("backlog", ["todo", "next"]),
   ("next", ["progress"]),
   ("progress", ["review", "blocked", "todo"]),
   ("review", ["done", "progress"]),
   ("blocked", ["todo", "progress"]),
   ("done", [])]

/-- The map index `validTransitions[currentStatus]`: a missing key gives the
nil slice. -/
def transitionsFrom (currentStatus : String) : List String :=
  (validTransitions.lookup currentStatus).getD []

/-- The loop `for _, s := range validTransitions[currentStatus]`, which sets
`valid` and breaks at the first element equal to the requested status. -/
def scanValid (status : String) : List String → Bool
  | [] => false
  | s :: rest => if s = status then true else scanValid status rest

/-- What `TransitionTask` does once the body is decoded: the 404 response when
the task is not found, the 400 response when the validation fails, and
otherwise the update of the row to the requested status. -/
inductive Response where
  | notFound
  | badRequest
  | update (status : String)
  deriving DecidableEq

/-- TransitionTask handles POST /api/tasks/:id/transition: `row` is the result
of `SELECT status FROM tasks WHERE id = $1`, `none` when the scan fails, and
`status` is the requested status. -/
def TransitionTask (row : Option String) (status : String) : Response :=
  match row with
  | none => Response.notFound
  | some currentStatus =>
    let valid := scanValid status (transitionsFrom currentStatus)
    if !valid && status != currentStatus then Response.badRequest
    else Response.update status

/-- The transition table as the specification lists it: whether `s` is listed
for the current status `c`. -/
def specListed (c s : String) : Bool :=
  (c == "todo" && (s == "progress" || s == "backlog")) ||
  (c == "backlog" && (s == "todo" || s == "next")) ||
  (c == "next" && s == "progress") ||
  (c == "progress" && (s == "review" || s == "blocked" || s == "todo")) ||
  (c == "review" && (s == "done" || s == "progress")) ||
  (c == "blocked" && (s == "todo" || s == "progress"))

end Handlers

namespace Websocket

/-! ## Properties -/

theorem trySend_room {α : Type} (ch : Chan α) (x : α) (hcl : ch.closed = false)
    (hroom : ch.hasRoom = true) : ch.trySend x = SendResult.sent (ch.push x) := by
  have h : ch.buf.length < ch.cap := by simpa [Chan.hasRoom] using hroom
  simp [Chan.trySend, hcl, h]

theorem trySend_full {α : Type} (ch : Chan α) (x : α) (hcl : ch.closed = false)
    (hroom : ch.hasRoom = false) : ch.trySend x = SendResult.full := by
  have h : ¬ ch.buf.length < ch.cap := by simpa [Chan.hasRoom] using hroom
  simp [Chan.trySend, hcl, h]

theorem trySend_closed {α : Type} (ch : Chan α) (x : α) (hcl : ch.closed = true) :
    ch.trySend x = SendResult.panicked := by
  simp [Chan.trySend, hcl]

theorem setSend_same (heap : ClientId → Client) (c : ClientId) (ch : Chan Frame) :
    (setSend heap c ch c).Send = ch := by
  simp [setSend]

theorem setSend_other (heap : ClientId → Client) (c d : ClientId) (ch : Chan Frame)
    (hne : d ≠ c) : setSend heap c ch d = heap d := by
  simp [setSend, hne]

theorem deliver_nil (data : Frame) (heap : ClientId → Client) : deliver data [] heap = heap := by
  funext d
  simp [deliver]

theorem deliver_cons_sent (data : Frame) (c : ClientId) (cs : List ClientId)
    (heap : ClientId → Client) (hc : c ∉ cs) (hroom : (heap c).Send.hasRoom = true) :
    deliver data cs (setSend heap c ((heap c).Send.push data)) = deliver data (c :: cs) heap := by
  funext d
  by_cases hd : d = c
  · subst hd
    simp [deliver, setSend, hc, hroom]
  · simp [deliver, setSend, hd]

theorem deliver_cons_full (data : Frame) (c : ClientId) (cs : List ClientId)
    (heap : ClientId → Client) (hroom : (heap c).Send.hasRoom = false) :
    deliver data (c :: cs) heap = deliver data cs heap := by
  funext d
  by_cases hd : d = c
  · subst hd
    simp [deliver, hroom]
  · simp [deliver, hd]

theorem congested_congr (cs : List ClientId) (heap heap1 : ClientId → Client)
    (hagree : ∀ c ∈ cs, (heap1 c).Send = (heap c).Send) :
    congested cs heap1 = congested cs heap := by
  unfold congested
  apply List.filter_congr
  intro c hc
  rw [hagree c hc]

theorem congested_cons_room (c : ClientId) (cs : List ClientId) (heap : ClientId → Client)
    (hroom : (heap c).Send.hasRoom = true) : congested (c :: cs) heap = congested cs heap := by
  simp [congested, hroom]

theorem congested_cons_full (c : ClientId) (cs : List ClientId) (heap : ClientId → Client)
    (hroom : (heap c).Send.hasRoom = false) :
    congested (c :: cs) heap = c :: congested cs heap := by
  simp [congested, hroom]

/-- Closed form of the fan-out loop over distinct clients with open queues. -/
theorem fanOut_eq {P : Type} (data : Frame) (cs : List ClientId) (h : Hub P)
    (hnd : cs.Nodup) (hopen : ∀ c ∈ cs, (h.heap c).Send.closed = false) :
    fanOut data cs h
      = some { h with heap := deliver data cs h.heap
                      unregister := h.unregister ++ congested cs h.heap } := by
  induction cs generalizing h with
  | nil => simp [fanOut, deliver_nil, congested]
  | cons c cs ih =>
    have hc : c ∉ cs := (List.nodup_cons.mp hnd).1
    have hnd1 : cs.Nodup := (List.nodup_cons.mp hnd).2
    have hcl : (h.heap c).Send.closed = false := hopen c (List.mem_cons_self c cs)
    cases hr : (h.heap c).Send.hasRoom with
    | true =>
      have hagree : ∀ d ∈ cs,
          (setSend h.heap c ((h.heap c).Send.push data) d).Send = (h.heap d).Send := by
        intro d hd
        have hne : d ≠ c := fun e => hc (e ▸ hd)
        rw [setSend_other _ _ _ _ hne]
      have hopen1 : ∀ d ∈ cs,
          (setSend h.heap c ((h.heap c).Send.push data) d).Send.closed = false := by
        intro d hd
        rw [hagree d hd]
        exact hopen d (List.mem_cons_of_mem c hd)
      rw [fanOut, trySend_room _ _ hcl hr]
      show fanOut data cs { h with heap := setSend h.heap c ((h.heap c).Send.push data) } = _
      rw [ih _ hnd1 hopen1]
      show some { h with heap := deliver data cs (setSend h.heap c ((h.heap c).Send.push data))
                         unregister := h.unregister
                           ++ congested cs (setSend h.heap c ((h.heap c).Send.push data)) } = _
      rw [deliver_cons_sent data c cs h.heap hc hr, congested_congr cs h.heap _ hagree,
        congested_cons_room c cs h.heap hr]
    | false =>
      rw [fanOut, trySend_full _ _ hcl hr]
      show fanOut data cs { h with unregister := h.unregister ++ [c] } = _
      rw [ih { h with unregister := h.unregister ++ [c] } hnd1
        (fun d hd => hopen d (List.mem_cons_of_mem c hd))]
      show some { h with heap := deliver data cs h.heap
                         unregister := (h.unregister ++ [c]) ++ congested cs h.heap } = _
      rw [deliver_cons_full data c cs h.heap hr, congested_cons_full c cs h.heap hr]
      simp

theorem runBroadcast_eq {P : Type} (marshal : Message P → Option Frame) (h : Hub P)
    (message : Message P) (rest : List (Message P)) (data : Frame)
    (hq : h.broadcast = message :: rest) (hm : marshal message = some data)
    (hnd : h.clients.Nodup) (hopen : ∀ c ∈ h.clients, (h.heap c).Send.closed = false) :
    runBroadcast marshal h
      = some { h with broadcast := rest
                      heap := deliver data h.clients h.heap
                      unregister := h.unregister ++ congested h.clients h.heap } := by
  unfold runBroadcast
  rw [hq]
  simp only [hm]
  exact fanOut_eq data h.clients { h with broadcast := rest } hnd hopen

theorem count_congested (cs : List ClientId) (heap : ClientId → Client) (c : ClientId)
    (hnd : cs.Nodup) :
    (congested cs heap).count c
      = if c ∈ cs ∧ (heap c).Send.hasRoom = false then 1 else 0 := by
  have hnd1 : (congested cs heap).Nodup := hnd.filter _
  by_cases hc : c ∈ cs ∧ (heap c).Send.hasRoom = false
  · rw [if_pos hc]
    apply List.count_eq_one_of_mem hnd1
    simp [congested, List.mem_filter, hc.1, hc.2]
  · rw [if_neg hc]
    apply List.count_eq_zero_of_not_mem
    intro hmem
    apply hc
    simpa [congested, List.mem_filter] using hmem

/-- C1. Fan-out delivery: when `Run` processes a publish whose message encodes
to `data`, every registered session whose queue has spare capacity gets exactly
one copy of `data` appended at the tail of its queue, the earlier content
unchanged; the same bytes go to every such session, whatever the number of
registered sessions with a full queue. -/
theorem fanout_delivers_to_every_session_with_room {P : Type}
    (marshal : Message P → Option Frame) (h : Hub P)
    (message : Message P) (rest : List (Message P)) (data : Frame)
    (hq : h.broadcast = message :: rest) (hm : marshal message = some data)
    (hnd : h.clients.Nodup) (hopen : ∀ c ∈ h.clients, (h.heap c).Send.closed = false) :
    ∃ h1, runBroadcast marshal h = some h1 ∧
      ∀ c ∈ h.clients, (h.heap c).Send.buf.length < (h.heap c).Send.cap →
        (h1.heap c).Send.buf = (h.heap c).Send.buf ++ [data] ∧
        (h1.heap c).Send.cap = (h.heap c).Send.cap ∧
        (h1.heap c).Send.closed = false := by
  refine ⟨_, runBroadcast_eq marshal h message rest data hq hm hnd hopen, ?_⟩
  intro c hc hroom
  have hr : (h.heap c).Send.hasRoom = true := by simp [Chan.hasRoom, hroom]
  simp [deliver, hc, hr, Chan.push, hopen c hc]

theorem fanout_delivers_to_every_session_with_room_witness :
    ∃ h1, runBroadcast sampleMarshal sampleHub = some h1 ∧
      ∀ c ∈ sampleHub.clients, (sampleHub.heap c).Send.buf.length < (sampleHub.heap c).Send.cap →
        (h1.heap c).Send.buf = (sampleHub.heap c).Send.buf ++ [[5, 100]] ∧
        (h1.heap c).Send.cap = (sampleHub.heap c).Send.cap ∧
        (h1.heap c).Send.closed = false :=
  fanout_delivers_to_every_session_with_room sampleMarshal sampleHub
    { MsgType := "task_created", Payload := 5, Timestamp := 100 } [] [5, 100]
    rfl rfl (by decide) (by decide)

/-- C2. Congestion eviction: when `Run` processes a publish, the step returns;
a registered session whose queue is full keeps its queue as it was and gets
exactly one more pending deregistration request; a session whose queue had
spare capacity, or that is not registered, gets none; the registry is the same
after the step. -/
theorem full_queue_schedules_one_deregistration {P : Type}
    (marshal : Message P → Option Frame) (h : Hub P)
    (message : Message P) (rest : List (Message P)) (data : Frame)
    (hq : h.broadcast = message :: rest) (hm : marshal message = some data)
    (hnd : h.clients.Nodup) (hopen : ∀ c ∈ h.clients, (h.heap c).Send.closed = false) :
    ∃ h1, runBroadcast marshal h = some h1 ∧
      h1.clients = h.clients ∧
      (∀ c ∈ h.clients, (h.heap c).Send.cap ≤ (h.heap c).Send.buf.length →
        h1.heap c = h.heap c ∧ h1.unregister.count c = h.unregister.count c + 1) ∧
      (∀ c, (h.heap c).Send.buf.length < (h.heap c).Send.cap →
        h1.unregister.count c = h.unregister.count c) ∧
      (∀ c, c ∉ h.clients → h1.heap c = h.heap c ∧
        h1.unregister.count c = h.unregister.count c) := by
  refine ⟨_, runBroadcast_eq marshal h message rest data hq hm hnd hopen, rfl, ?_, ?_, ?_⟩
  · intro c hc hfull
    have hr : (h.heap c).Send.hasRoom = false := by
      simp [Chan.hasRoom, Nat.not_lt.mpr hfull]
    simp [deliver, hr, List.count_append, count_congested _ _ _ hnd, hc]
  · intro c hroom
    have hr : (h.heap c).Send.hasRoom = true := by simp [Chan.hasRoom, hroom]
    simp [List.count_append, count_congested _ _ _ hnd, hr]
  · intro c hc
    simp [deliver, hc, List.count_append, count_congested _ _ _ hnd]

theorem full_queue_schedules_one_deregistration_witness :
    ∃ h1, runBroadcast sampleMarshal sampleHub = some h1 ∧
      h1.clients = sampleHub.clients ∧
      (∀ c ∈ sampleHub.clients, (sampleHub.heap c).Send.cap ≤ (sampleHub.heap c).Send.buf.length →
        h1.heap c = sampleHub.heap c ∧
        h1.unregister.count c = sampleHub.unregister.count c + 1) ∧
      (∀ c, (sampleHub.heap c).Send.buf.length < (sampleHub.heap c).Send.cap →
        h1.unregister.count c = sampleHub.unregister.count c) ∧
      (∀ c, c ∉ sampleHub.clients → h1.heap c = sampleHub.heap c ∧
        h1.unregister.count c = sampleHub.unregister.count c) :=
  full_queue_schedules_one_deregistration sampleMarshal sampleHub
    { MsgType := "task_created", Payload := 5, Timestamp := 100 } [] [5, 100]
    rfl rfl (by decide) (by decide)


theorem Broadcast_full {P : Type} (h : Hub P) (msgType : String) (payload : P) (now : Nat)
    (hfull : h.broadcastCap ≤ h.broadcast.length) : Broadcast h msgType payload now = h := by
  simp [Broadcast, Nat.not_lt.mpr hfull]

theorem Broadcast_room {P : Type} (h : Hub P) (msgType : String) (payload : P) (now : Nat)
    (hroom : h.broadcast.length < h.broadcastCap) :
    Broadcast h msgType payload now
      = { h with broadcast := h.broadcast ++ [toMessage (msgType, payload, now)] } := by
  simp [Broadcast, hroom, toMessage]

theorem publishAll_eq {P : Type} (pubs : List (String × P × Nat)) (h : Hub P) :
    publishAll h pubs
      = { h with broadcast := h.broadcast
            ++ (pubs.take (h.broadcastCap - h.broadcast.length)).map toMessage } := by
  induction pubs generalizing h with
  | nil => simp [publishAll]
  | cons p ps ih =>
    have hstep : publishAll h (p :: ps) = publishAll (Broadcast h p.1 p.2.1 p.2.2) ps := rfl
    rw [hstep]
    by_cases hroom : h.broadcast.length < h.broadcastCap
    · rw [Broadcast_room h _ _ _ hroom, ih]
      obtain ⟨k, hk⟩ : ∃ k, h.broadcastCap - h.broadcast.length = k + 1 :=
        ⟨h.broadcastCap - h.broadcast.length - 1, by omega⟩
      have hk1 : h.broadcastCap - (h.broadcast.length + 1) = k := by omega
      simp [hk, hk1, List.take_succ_cons]
    · have hfull : h.broadcastCap ≤ h.broadcast.length := Nat.not_lt.mp hroom
      rw [Broadcast_full h _ _ _ hfull, ih]
      have hz : h.broadcastCap - h.broadcast.length = 0 := by omega
      simp [hz]

/-- C3. Publish is best-effort and never blocks: `Broadcast` is a total
function of the hub state with no error outcome. On a full inbound queue the
hub state is returned unchanged; otherwise exactly one message with the given
type and payload is appended at the tail of the inbound queue and nothing else
changes. Nothing depends on the registry, which may be empty. The queue of a
hub made by `NewHub` has capacity 256: of any sequence of publishes that `Run`
does not process, the first 256 are queued in order and the others dropped. -/
theorem broadcast_is_best_effort {P : Type} (h : Hub P) (msgType : String) (payload : P)
    (now : Nat) :
    (h.broadcastCap ≤ h.broadcast.length → Broadcast h msgType payload now = h) ∧
    (h.broadcast.length < h.broadcastCap →
      (Broadcast h msgType payload now).broadcast
          = h.broadcast ++ [{ MsgType := msgType, Payload := payload, Timestamp := now }] ∧
        (Broadcast h msgType payload now).clients = h.clients ∧
        (Broadcast h msgType payload now).heap = h.heap ∧
        (Broadcast h msgType payload now).unregister = h.unregister ∧
        (Broadcast h msgType payload now).broadcastCap = h.broadcastCap) ∧
    (∀ (heap : ClientId → Client) (pubs : List (String × P × Nat)),
      (NewHub heap : Hub P).clients = [] ∧
        (NewHub heap : Hub P).broadcastCap = 256 ∧
        publishAll (NewHub heap) pubs
          = { (NewHub heap : Hub P) with broadcast := (pubs.take 256).map toMessage }) := by
  refine ⟨Broadcast_full h msgType payload now, ?_, ?_⟩
  · intro hroom
    rw [Broadcast_room h msgType payload now hroom]
    exact ⟨rfl, rfl, rfl, rfl, rfl⟩
  · intro heap pubs
    refine ⟨rfl, rfl, ?_⟩
    rw [publishAll_eq]
    simp [NewHub]

theorem broadcast_is_best_effort_witness :
    (Broadcast { sampleHub with broadcastCap := 1 } "task_updated" 9 101
        = { sampleHub with broadcastCap := 1 }) ∧
      (Broadcast sampleHub "task_updated" 9 101).broadcast
        = sampleHub.broadcast ++ [{ MsgType := "task_updated", Payload := 9, Timestamp := 101 }] :=
  ⟨(broadcast_is_best_effort { sampleHub with broadcastCap := 1 } "task_updated" 9 101).1
      (by decide),
    ((broadcast_is_best_effort sampleHub "task_updated" 9 101).2.1 (by decide)).1⟩

theorem drainLoop_eq (n : Nat) (ch : Chan Frame) (w : Frame) (z : Nat)
    (hn : n ≤ ch.buf.length) :
    drainLoop n ch w z
      = some ({ ch with buf := ch.buf.drop n },
          w ++ ((ch.buf.take n).map (fun m => 10 :: m)).flatten, z) := by
  induction n generalizing ch w with
  | zero => simp [drainLoop]
  | succ n ih =>
    obtain ⟨buf, cap, closed⟩ := ch
    cases buf with
    | nil => simp at hn
    | cons m rest =>
      have hn1 : n ≤ rest.length := by simpa using hn
      simp only [drainLoop, Chan.recv]
      rw [ih _ _ hn1]
      simp

theorem writePumpWake_nonempty (cl : Client) (m : Frame) (ms : List Frame)
    (hb : cl.Send.buf = m :: ms) :
    writePumpWake cl false false
      = WakeResult.wrote
          { cl with Send := { cl.Send with buf := [] }
                    Conn := cl.Conn ++ [m ++ (ms.map (fun x => 10 :: x)).flatten] }
          (m ++ (ms.map (fun x => 10 :: x)).flatten) 0 true := by
  obtain ⟨⟨buf, cap, closed⟩, subs, conn⟩ := cl
  simp only at hb
  subst hb
  have hd := drainLoop_eq ms.length { buf := ms, cap := cap, closed := closed } m 0 (le_refl _)
  simp only [writePumpWake, Chan.recv, hd]
  simp

theorem writePumpWake_empty (cl : Client) (a b : Bool) (hb : cl.Send.buf = []) :
    writePumpWake cl a b
      = if cl.Send.closed then WakeResult.closeSent else WakeResult.notReady := by
  obtain ⟨⟨buf, cap, closed⟩, subs, conn⟩ := cl
  simp only at hb
  subst hb
  cases closed <;> simp [writePumpWake, Chan.recv]

/-- The hub after one wake-up of the `WritePump` of `c`: the whole queue of
`c` goes to the connection as one write. -/
theorem writePumpStep_eq {P : Type} (c : ClientId) (h : Hub P) :
    writePumpStep c h
      = match (h.heap c).Send.buf with
        | [] => h
        | m :: ms =>
          { h with heap := fun d =>
              if d = c then
                { h.heap c with
                    Send := { (h.heap c).Send with buf := [] }
                    Conn := (h.heap c).Conn ++ [m ++ (ms.map (fun x => 10 :: x)).flatten] }
              else h.heap d } := by
  cases hb : (h.heap c).Send.buf with
  | nil =>
    simp only [writePumpStep, writePumpWake_empty _ _ _ hb]
    cases (h.heap c).Send.closed <;> rfl
  | cons m ms =>
    simp only [writePumpStep, writePumpWake_nonempty _ m ms hb]

theorem trySend_sent_closed {α : Type} (ch ch1 : Chan α) (x : α)
    (h : ch.trySend x = SendResult.sent ch1) : ch1.closed = ch.closed ∧ ch.closed = false := by
  unfold Chan.trySend at h
  split at h
  · cases h
  · split at h
    · cases h
      rename_i hcl _
      exact ⟨rfl, by simpa using hcl⟩
    · cases h

/-- What the fan-out loop leaves alone, whatever the state of the queues. -/
theorem fanOut_frame {P : Type} (data : Frame) (cs : List ClientId) (h h1 : Hub P)
    (hrun : fanOut data cs h = some h1) :
    h1.clients = h.clients ∧ h1.broadcast = h.broadcast ∧ h1.broadcastCap = h.broadcastCap ∧
      (∀ d, d ∉ cs → h1.heap d = h.heap d) ∧
      (∀ d, (h1.heap d).Send.closed = (h.heap d).Send.closed) := by
  induction cs generalizing h with
  | nil =>
    simp only [fanOut, Option.some.injEq] at hrun
    subst hrun
    simp
  | cons c cs ih =>
    rw [fanOut] at hrun
    cases hs : (h.heap c).Send.trySend data with
    | sent ch =>
      rw [hs] at hrun
      obtain ⟨e1, e2, e3, e4, e5⟩ := ih _ hrun
      have hcl := trySend_sent_closed _ _ _ hs
      refine ⟨e1, e2, e3, ?_, ?_⟩
      · intro d hd
        have hdc : d ≠ c := fun e => hd (e ▸ List.mem_cons_self c cs)
        have hdcs : d ∉ cs := fun e => hd (List.mem_cons_of_mem c e)
        rw [e4 d hdcs]
        exact setSend_other _ _ _ _ hdc
      · intro d
        rw [e5 d]
        by_cases hdc : d = c
        · subst hdc
          show (setSend h.heap d ch d).Send.closed = _
          rw [setSend_same]
          exact hcl.1
        · show (setSend h.heap c ch d).Send.closed = _
          rw [setSend_other _ _ _ _ hdc]
    | full =>
      rw [hs] at hrun
      obtain ⟨e1, e2, e3, e4, e5⟩ := ih _ hrun
      exact ⟨e1, e2, e3, fun d hd => e4 d (fun e => hd (List.mem_cons_of_mem c e)), e5⟩
    | panicked =>
      rw [hs] at hrun
      cases hrun

theorem runBroadcast_frame {P : Type} (marshal : Message P → Option Frame) (h h1 : Hub P)
    (hrun : runBroadcast marshal h = some h1) :
    h1.clients = h.clients ∧ h1.broadcastCap = h.broadcastCap ∧
      (∀ d, d ∉ h.clients → h1.heap d = h.heap d) ∧
      (∀ d, (h1.heap d).Send.closed = (h.heap d).Send.closed) := by
  unfold runBroadcast at hrun
  cases hq : h.broadcast with
  | nil =>
    rw [hq] at hrun
    simp only [Option.some.injEq] at hrun
    subst hrun
    simp
  | cons message rest =>
    rw [hq] at hrun
    simp only at hrun
    cases hm : marshal message with
    | none =>
      rw [hm] at hrun
      simp only [Option.some.injEq] at hrun
      subst hrun
      simp
    | some data =>
      rw [hm] at hrun
      obtain ⟨e1, _, e3, e4, e5⟩ := fanOut_frame data h.clients _ h1 hrun
      exact ⟨e1, e3, e4, e5⟩

theorem Broadcast_frame {P : Type} (h : Hub P) (msgType : String) (payload : P) (now : Nat) :
    (Broadcast h msgType payload now).clients = h.clients ∧
      (Broadcast h msgType payload now).heap = h.heap ∧
      (Broadcast h msgType payload now).unregister = h.unregister ∧
      (Broadcast h msgType payload now).broadcastCap = h.broadcastCap := by
  unfold Broadcast
  split <;> simp

theorem writePumpStep_frame {P : Type} (c : ClientId) (h : Hub P) :
    (writePumpStep c h).clients = h.clients ∧
      (writePumpStep c h).unregister = h.unregister ∧
      (writePumpStep c h).broadcast = h.broadcast ∧
      (writePumpStep c h).broadcastCap = h.broadcastCap ∧
      (∀ d, d ≠ c → (writePumpStep c h).heap d = h.heap d) ∧
      (∀ d, ((writePumpStep c h).heap d).Send.closed = (h.heap d).Send.closed) ∧
      (∀ d, ((writePumpStep c h).heap d).Send.cap = (h.heap d).Send.cap) ∧
      (∀ d, ((writePumpStep c h).heap d).Send.buf <:+ (h.heap d).Send.buf) := by
  rw [writePumpStep_eq]
  cases hb : (h.heap c).Send.buf with
  | nil => simp
  | cons m ms =>
    refine ⟨rfl, rfl, rfl, rfl, ?_, ?_, ?_, ?_⟩
    · intro d hd
      simp [hd]
    · intro d
      by_cases hd : d = c
      · subst hd; simp
      · simp [hd]
    · intro d
      by_cases hd : d = c
      · subst hd; simp
      · simp [hd]
    · intro d
      by_cases hd : d = c
      · subst hd; simp
      · simp [hd]

theorem readPumpStep_frame {P : Type} (c : ClientId) (input : Option (List (String × JSON)))
    (h : Hub P) :
    (readPumpStep c input h).clients = h.clients ∧
      (readPumpStep c input h).broadcast = h.broadcast ∧
      (readPumpStep c input h).broadcastCap = h.broadcastCap ∧
      (∀ d, ((readPumpStep c input h).heap d).Send = (h.heap d).Send) ∧
      (∀ d, ((readPumpStep c input h).heap d).Conn = (h.heap d).Conn) := by
  cases input with
  | none => simp [readPumpStep]
  | some msg =>
    refine ⟨rfl, rfl, rfl, ?_, ?_⟩
    · intro d
      by_cases hd : d = c
      · subst hd; simp [readPumpStep, setSubs]
      · simp [readPumpStep, setSubs, hd]
    · intro d
      by_cases hd : d = c
      · subst hd; simp [readPumpStep, setSubs]
      · simp [readPumpStep, setSubs, hd]

theorem runUnregister_present {P : Type} (c : ClientId) (h : Hub P) (hc : c ∈ h.clients)
    (hopen : (h.heap c).Send.closed = false) :
    runUnregister c h
      = some { h with unregister := h.unregister.erase c
                      clients := h.clients.erase c
                      heap := setSend h.heap c { (h.heap c).Send with closed := true } } := by
  simp [runUnregister, hc, Chan.close, hopen]

theorem runUnregister_absent {P : Type} (c : ClientId) (h : Hub P) (hc : c ∉ h.clients) :
    runUnregister c h = some { h with unregister := h.unregister.erase c } := by
  simp [runUnregister, hc]

theorem runUnregister_closed {P : Type} (c : ClientId) (h : Hub P) (hc : c ∈ h.clients)
    (hcl : (h.heap c).Send.closed = true) : runUnregister c h = none := by
  simp [runUnregister, hc, Chan.close, hcl]

/-- A step other than the registration of `c` keeps an unregistered `c` out of
the registry, keeps the closed flag of its queue and enqueues nothing on it. -/
theorem step_keeps_absent {P : Type} (marshal : Message P → Option Frame) (c : ClientId)
    (st : Step P) (h h1 : Hub P) (hst : st ≠ Step.register c) (hc : c ∉ h.clients)
    (hrun : step marshal st h = some h1) :
    c ∉ h1.clients ∧ (h1.heap c).Send.closed = (h.heap c).Send.closed ∧
      (h1.heap c).Send.buf <:+ (h.heap c).Send.buf := by
  cases st with
  | register d =>
    have hdc : c ≠ d := fun e => hst (e ▸ rfl)
    simp only [step, Option.some.injEq] at hrun
    subst hrun
    refine ⟨?_, rfl, List.suffix_refl _⟩
    simp only [runRegister]
    split
    · exact hc
    · simp [hc, hdc]
  | unregister d =>
    simp only [step] at hrun
    by_cases hd : d ∈ h.clients
    · have hdc : c ≠ d := fun e => hc (e ▸ hd)
      cases hcl : (h.heap d).Send.closed with
      | true =>
        rw [runUnregister_closed d h hd hcl] at hrun
        cases hrun
      | false =>
        rw [runUnregister_present d h hd hcl] at hrun
        simp only [Option.some.injEq] at hrun
        subst hrun
        refine ⟨fun hm => hc (List.mem_of_mem_erase hm), ?_, ?_⟩
        · show (setSend h.heap d _ c).Send.closed = _
          rw [setSend_other _ _ _ _ hdc]
        · show (setSend h.heap d _ c).Send.buf <:+ _
          rw [setSend_other _ _ _ _ hdc]
    · rw [runUnregister_absent d h hd] at hrun
      simp only [Option.some.injEq] at hrun
      subst hrun
      exact ⟨hc, rfl, List.suffix_refl _⟩
  | broadcast =>
    simp only [step] at hrun
    obtain ⟨e1, _, e3, e4⟩ := runBroadcast_frame marshal h h1 hrun
    refine ⟨e1 ▸ hc, e4 c, ?_⟩
    rw [e3 c hc]
  | publish msgType payload now =>
    simp only [step, Option.some.injEq] at hrun
    subst hrun
    obtain ⟨e1, e2, _, _⟩ := Broadcast_frame h msgType payload now
    rw [e1, e2]
    exact ⟨hc, rfl, List.suffix_refl _⟩
  | writePump d =>
    simp only [step, Option.some.injEq] at hrun
    subst hrun
    obtain ⟨e1, _, _, _, _, e6, _, e8⟩ := writePumpStep_frame d h
    exact ⟨e1 ▸ hc, e6 c, e8 c⟩
  | readFrame d input =>
    simp only [step, Option.some.injEq] at hrun
    subst hrun
    obtain ⟨e1, _, _, e4, _⟩ := readPumpStep_frame d input h
    rw [e1, e4 c]
    exact ⟨hc, rfl, List.suffix_refl _⟩

theorem run_keeps_absent {P : Type} (marshal : Message P → Option Frame) (c : ClientId)
    (steps : List (Step P)) (h h1 : Hub P) (hst : ∀ st ∈ steps, st ≠ Step.register c)
    (hc : c ∉ h.clients) (hrun : run marshal steps h = some h1) :
    c ∉ h1.clients ∧ (h1.heap c).Send.closed = (h.heap c).Send.closed ∧
      (h1.heap c).Send.buf <:+ (h.heap c).Send.buf := by
  induction steps generalizing h with
  | nil =>
    simp only [run, Option.some.injEq] at hrun
    subst hrun
    exact ⟨hc, rfl, List.suffix_refl _⟩
  | cons st rest ih =>
    rw [run] at hrun
    cases hs : step marshal st h with
    | none =>
      rw [hs] at hrun
      cases hrun
    | some h2 =>
      rw [hs] at hrun
      obtain ⟨a1, a2, a3⟩ :=
        step_keeps_absent marshal c st h h2 (hst st (List.mem_cons_self st rest)) hc hs
      obtain ⟨b1, b2, b3⟩ :=
        ih h2 (fun s hs1 => hst s (List.mem_cons_of_mem st hs1)) a1 hrun
      exact ⟨b1, b2.trans a2, b3.trans a3⟩

/-- C4. Deregistration is idempotent. Processing a deregister request for a
registered session removes it from the registry and closes its queue, touching
no other session and not the queue content. Processing a request for a session
that is absent changes neither the registry nor any client and does not panic,
also when the queue of that session is already closed; so the second of two
requests for one session is such a no-op. After a deregistration the session
stays out of the registry, its queue stays closed and nothing is enqueued on
it, through every later sequence of steps that does not register it again. -/
theorem deregister_is_idempotent {P : Type} (marshal : Message P → Option Frame) (h : Hub P)
    (c : ClientId) (hnd : h.clients.Nodup) :
    (c ∈ h.clients → (h.heap c).Send.closed = false →
      ∃ h1 h2, runUnregister c h = some h1 ∧
        c ∉ h1.clients ∧ (∀ d, d ≠ c → (d ∈ h1.clients ↔ d ∈ h.clients)) ∧
        (h1.heap c).Send.closed = true ∧ (h1.heap c).Send.buf = (h.heap c).Send.buf ∧
        (∀ d, d ≠ c → h1.heap d = h.heap d) ∧
        runUnregister c h1 = some h2 ∧ h2.clients = h1.clients ∧ h2.heap = h1.heap ∧
        (∀ steps h3, (∀ st ∈ steps, st ≠ Step.register c) → run marshal steps h1 = some h3 →
          c ∉ h3.clients ∧ (h3.heap c).Send.closed = true ∧
            (h3.heap c).Send.buf <:+ (h1.heap c).Send.buf)) ∧
    (c ∉ h.clients →
      ∃ h1, runUnregister c h = some h1 ∧ h1.clients = h.clients ∧ h1.heap = h.heap) := by
  constructor
  · intro hc hopen
    have hc1 : c ∉ h.clients.erase c := fun hm => (hnd.mem_erase_iff.mp hm).1 rfl
    refine ⟨_, _, runUnregister_present c h hc hopen, hc1, ?_, ?_, ?_, ?_,
      runUnregister_absent c _ hc1, rfl, rfl, ?_⟩
    · intro d hd
      exact List.mem_erase_of_ne hd
    · show (setSend h.heap c _ c).Send.closed = true
      rw [setSend_same]
    · show (setSend h.heap c _ c).Send.buf = _
      rw [setSend_same]
    · intro d hd
      exact setSend_other _ _ _ _ hd
    · intro steps h3 hst hrun
      obtain ⟨a1, a2, a3⟩ := run_keeps_absent marshal c steps _ h3 hst hc1 hrun
      refine ⟨a1, ?_, a3⟩
      rw [a2]
      show (setSend h.heap c _ c).Send.closed = true
      rw [setSend_same]
  · intro hc
    exact ⟨_, runUnregister_absent c h hc, rfl, rfl⟩

theorem deregister_is_idempotent_witness :
    (∃ h1, runUnregister 1 sampleHub = some h1 ∧ 1 ∉ h1.clients ∧
        (h1.heap 1).Send.closed = true ∧ runUnregister 1 h1 = some h1) ∧
      (∃ h1, runUnregister 3 sampleHub = some h1 ∧ h1.clients = sampleHub.clients ∧
        h1.heap = sampleHub.heap) := by
  constructor
  · obtain ⟨h1, h2, e1, e2, _, e4, _, _, e7, e8, e9, _⟩ :=
      (deregister_is_idempotent sampleMarshal sampleHub 1 (by decide)).1 (by decide) (by decide)
    refine ⟨h1, e1, e2, e4, ?_⟩
    rw [e7]
    have hu : h2.unregister = h1.unregister := by
      have e7b := e7
      rw [runUnregister_absent 1 h1 e2] at e7b
      simp only [Option.some.injEq] at e7b
      rw [← e7b]
      have : h1.unregister = [] := by
        have e1b := e1
        rw [runUnregister_present 1 sampleHub (by decide) (by decide)] at e1b
        simp only [Option.some.injEq] at e1b
        rw [← e1b]
        rfl
      simp [this]
    have hb : h2.broadcast = h1.broadcast ∧ h2.broadcastCap = h1.broadcastCap := by
      have e7b := e7
      rw [runUnregister_absent 1 h1 e2] at e7b
      simp only [Option.some.injEq] at e7b
      rw [← e7b]
      exact ⟨rfl, rfl⟩
    obtain ⟨c1, b1, k1, u1, p1⟩ := h1
    obtain ⟨c2, b2, k2, u2, p2⟩ := h2
    simp only at e8 e9 hu hb
    obtain ⟨hb1, hb2⟩ := hb
    subst e8 e9 hu hb1 hb2
    rfl
  · exact (deregister_is_idempotent sampleMarshal sampleHub 3 (by decide)).2 (by decide)

theorem runBroadcast_total {P : Type} (marshal : Message P → Option Frame) (h : Hub P)
    (hnd : h.clients.Nodup) (hopen : ∀ c ∈ h.clients, (h.heap c).Send.closed = false) :
    ∃ h1, runBroadcast marshal h = some h1 := by
  cases hq : h.broadcast with
  | nil => exact ⟨h, by simp [runBroadcast, hq]⟩
  | cons message rest =>
    cases hm : marshal message with
    | none => exact ⟨{ h with broadcast := rest }, by simp [runBroadcast, hq, hm]⟩
    | some data => exact ⟨_, runBroadcast_eq marshal h message rest data hq hm hnd hopen⟩

/-- The invariant of the hub before the steps `steps`: the registry has no
duplicate, no registered session has a closed queue, and the sessions still to
be registered are not registered yet and have an open queue. -/
theorem run_safe {P : Type} (marshal : Message P → Option Frame) (steps : List (Step P))
    (h : Hub P) (hnd : h.clients.Nodup)
    (hinv : ∀ c, (h.heap c).Send.closed = true → c ∉ h.clients)
    (hreg : ∀ c ∈ registrations steps, (h.heap c).Send.closed = false ∧ c ∉ h.clients)
    (honce : (registrations steps).Nodup) :
    ∃ h1, run marshal steps h = some h1 ∧ h1.clients.Nodup ∧
      ∀ c, (h1.heap c).Send.closed = true → c ∉ h1.clients := by
  induction steps generalizing h with
  | nil => exact ⟨h, rfl, hnd, hinv⟩
  | cons st rest ih =>
    have hopen : ∀ c ∈ h.clients, (h.heap c).Send.closed = false := by
      intro c hc
      cases hcl : (h.heap c).Send.closed with
      | false => rfl
      | true => exact absurd hc (hinv c hcl)
    -- every step but a registration keeps the registrations still to come
    have keep : ∀ h2 : Hub P, step marshal st h = some h2 →
        registrations (st :: rest) = registrations rest →
        h2.clients.Nodup → (∀ c, c ∈ h2.clients → c ∈ h.clients) →
        (∀ c, (h2.heap c).Send.closed = true →
          (h.heap c).Send.closed = true ∨ c ∉ h2.clients ∧ c ∈ h.clients) →
        ∃ h1, run marshal (st :: rest) h = some h1 ∧ h1.clients.Nodup ∧
          ∀ c, (h1.heap c).Send.closed = true → c ∉ h1.clients := by
      intro h2 hs hregs hnd2 hsub hcl2
      rw [hregs] at hreg honce
      have hinv2 : ∀ c, (h2.heap c).Send.closed = true → c ∉ h2.clients := by
        intro c hc
        rcases hcl2 c hc with h0 | h0
        · exact fun hm => hinv c h0 (hsub c hm)
        · exact h0.1
      have hreg2 : ∀ c ∈ registrations rest,
          (h2.heap c).Send.closed = false ∧ c ∉ h2.clients := by
        intro c hc
        obtain ⟨r1, r2⟩ := hreg c hc
        refine ⟨?_, fun hm => r2 (hsub c hm)⟩
        cases hcl : (h2.heap c).Send.closed with
        | false => rfl
        | true =>
          rcases hcl2 c hcl with h0 | h0
          · rw [r1] at h0; cases h0
          · exact absurd h0.2 r2
      obtain ⟨h1, e1, e2, e3⟩ := ih h2 hnd2 hinv2 hreg2 honce
      exact ⟨h1, by rw [run, hs]; exact e1, e2, e3⟩
    cases st with
    | register c =>
      have hregs : registrations (Step.register c :: rest) = c :: registrations rest := rfl
      rw [hregs] at hreg honce
      obtain ⟨hc1, hc2⟩ := hreg c (List.mem_cons_self c _)
      have hcl : (runRegister c h).clients = h.clients ++ [c] := by
        simp [runRegister, hc2]
      have hnd2 : (runRegister c h).clients.Nodup := by
        rw [hcl]
        exact List.Nodup.append hnd (List.nodup_singleton c) (by simpa using hc2)
      have hinv2 : ∀ d, ((runRegister c h).heap d).Send.closed = true →
          d ∉ (runRegister c h).clients := by
        intro d hd
        rw [hcl]
        have hd1 : (h.heap d).Send.closed = true := hd
        have hne : d ≠ c := fun e => by rw [e, hc1] at hd1; cases hd1
        simp [hinv d hd1, hne]
      have hreg2 : ∀ d ∈ registrations rest,
          ((runRegister c h).heap d).Send.closed = false ∧ d ∉ (runRegister c h).clients := by
        intro d hd
        obtain ⟨r1, r2⟩ := hreg d (List.mem_cons_of_mem c hd)
        have hne : d ≠ c := fun e => (List.nodup_cons.mp honce).1 (e ▸ hd)
        rw [hcl]
        exact ⟨r1, by simp [r2, hne]⟩
      obtain ⟨h1, e1, e2, e3⟩ :=
        ih (runRegister c h) hnd2 hinv2 hreg2 (List.nodup_cons.mp honce).2
      exact ⟨h1, by rw [run]; exact e1, e2, e3⟩
    | unregister c =>
      by_cases hc : c ∈ h.clients
      · refine keep _ (runUnregister_present c h hc (hopen c hc)) rfl (hnd.erase c)
          (fun d hd => List.mem_of_mem_erase hd) ?_
        intro d hd
        by_cases hdc : d = c
        · subst hdc
          exact Or.inr ⟨fun hm => (hnd.mem_erase_iff.mp hm).1 rfl, hc⟩
        · left
          have : (setSend h.heap c { (h.heap c).Send with closed := true } d).Send.closed
              = true := hd
          rw [setSend_other _ _ _ _ hdc] at this
          exact this
      · exact keep _ (runUnregister_absent c h hc) rfl hnd (fun d hd => hd)
          (fun d hd => Or.inl hd)
    | broadcast =>
      obtain ⟨h2, hs⟩ := runBroadcast_total marshal h hnd hopen
      obtain ⟨e1, _, _, e4⟩ := runBroadcast_frame marshal h h2 hs
      exact keep h2 hs rfl (e1 ▸ hnd) (fun d hd => e1 ▸ hd) (fun d hd => Or.inl (e4 d ▸ hd))
    | publish msgType payload now =>
      obtain ⟨e1, e2, _, _⟩ := Broadcast_frame h msgType payload now
      exact keep _ rfl rfl (e1 ▸ hnd) (fun d hd => e1 ▸ hd) (fun d hd => Or.inl (e2 ▸ hd))
    | writePump c =>
      obtain ⟨e1, _, _, _, _, e6, _, _⟩ := writePumpStep_frame c h
      exact keep _ rfl rfl (e1 ▸ hnd) (fun d hd => e1 ▸ hd) (fun d hd => Or.inl (e6 d ▸ hd))
    | readFrame c input =>
      obtain ⟨e1, _, _, e4, _⟩ := readPumpStep_frame c input h
      exact keep _ rfl rfl (e1 ▸ hnd) (fun d hd => e1 ▸ hd) (fun d hd => Or.inl (e4 d ▸ hd))

/-- C5. No write after close and no double close. From the hub made by
`NewHub`, with the queues of all clients open, every sequence of register,
deregister, publish, fan-out, reader and writer steps in which each session is
registered at most once runs without a panic: no fan-out sends on a closed
queue and no deregistration closes a closed queue. In the state reached, a
session whose queue is closed is not in the registry, and the registry holds no
session twice. -/
theorem no_write_after_close {P : Type} (marshal : Message P → Option Frame)
    (heap : ClientId → Client) (steps : List (Step P))
    (hfresh : ∀ c, (heap c).Send.closed = false)
    (honce : (registrations steps).Nodup) :
    ∃ h, run marshal steps (NewHub heap) = some h ∧ h.clients.Nodup ∧
      ∀ c, (h.heap c).Send.closed = true → c ∉ h.clients := by
  apply run_safe marshal steps (NewHub heap) List.nodup_nil
  · intro c _
    simp [NewHub]
  · intro c _
    exact ⟨hfresh c, by simp [NewHub]⟩
  · exact honce

theorem no_write_after_close_witness :
    ∃ h, run sampleMarshal
        [Step.register 1, Step.register 2, Step.publish "task_created" 5 100, Step.broadcast,
          Step.readFrame 2 none, Step.unregister 2, Step.unregister 2,
          Step.publish "task_updated" 6 101, Step.broadcast, Step.unregister 1]
        (NewHub sampleHeap) = some h ∧ h.clients.Nodup ∧
      ∀ c, (h.heap c).Send.closed = true → c ∉ h.clients :=
  no_write_after_close sampleMarshal sampleHeap
    [Step.register 1, Step.register 2, Step.publish "task_created" 5 100, Step.broadcast,
      Step.readFrame 2 none, Step.unregister 2, Step.unregister 2,
      Step.publish "task_updated" 6 101, Step.broadcast, Step.unregister 1]
    (by intro c; unfold sampleHeap; split_ifs <;> rfl) (by decide)


theorem deliver_send_mem (data : Frame) (cs : List ClientId) (heap : ClientId → Client)
    (c : ClientId) (hc : c ∈ cs) (hroom : (heap c).Send.hasRoom = true) :
    (deliver data cs heap c).Send = (heap c).Send.push data ∧
      (deliver data cs heap c).Conn = (heap c).Conn ∧
      (deliver data cs heap c).Subscriptions = (heap c).Subscriptions := by
  simp [deliver, hc, hroom]

theorem deliver_full (data : Frame) (cs : List ClientId) (heap : ClientId → Client)
    (c : ClientId) (hroom : (heap c).Send.hasRoom = false) :
    deliver data cs heap c = heap c := by
  simp [deliver, hroom]

/-- The pipeline of a session that always has room. Over publishes, fan-outs
and writer wake-ups, what the writer of `c` has put on the wire, followed by
the queue of `c`, is the initial queue followed by the frames of the messages
processed so far; those are a prefix of the pending and accepted messages, and
the others still wait in the inbound queue, in order. -/
theorem pipeline {P : Type} (marshal : Message P → Option Frame) (c : ClientId)
    (steps : List (Step P)) (h : Hub P)
    (htraffic : ∀ st ∈ steps, Step.isTraffic st = true)
    (hc : c ∈ h.clients) (hnd : h.clients.Nodup)
    (hopen : ∀ d ∈ h.clients, (h.heap d).Send.closed = false)
    (hroom : hasRoomAlways marshal c steps h = true) :
    ∃ h1 k batches, run marshal steps h = some h1 ∧
      h1.clients = h.clients ∧ (∀ d, (h1.heap d).Send.closed = (h.heap d).Send.closed) ∧
      k ≤ (h.broadcast ++ accepted marshal steps h).length ∧
      h1.broadcast = (h.broadcast ++ accepted marshal steps h).drop k ∧
      (∀ bt ∈ batches, bt ≠ []) ∧
      ((∀ st ∈ steps, Step.drains c st = false) → batches = []) ∧
      (h1.heap c).Conn = (h.heap c).Conn ++ batches.map wireOf ∧
      batches.flatten ++ (h1.heap c).Send.buf
        = (h.heap c).Send.buf
          ++ ((h.broadcast ++ accepted marshal steps h).take k).filterMap marshal ∧
      h1.unregister.count c = h.unregister.count c := by
  induction steps generalizing h with
  | nil =>
    refine ⟨h, 0, [], rfl, rfl, fun _ => rfl, Nat.zero_le _, by simp [accepted], ?_, ?_, ?_, ?_,
      rfl⟩
    · intro bt hbt; cases hbt
    · intro _; rfl
    · simp
    · simp
  | cons st rest ih =>
    have htr : ∀ s ∈ rest, Step.isTraffic s = true :=
      fun s hs => htraffic s (List.mem_cons_of_mem st hs)
    have hst := htraffic st (List.mem_cons_self st rest)
    cases st with
    | register d => simp [Step.isTraffic] at hst
    | unregister d => simp [Step.isTraffic] at hst
    | readFrame d input => simp [Step.isTraffic] at hst
    | publish msgType payload now =>
      have hroom1 : hasRoomAlways marshal c rest (Broadcast h msgType payload now) = true := by
        simpa [hasRoomAlways, step] using hroom
      obtain ⟨f1, f2, f3, f4⟩ := Broadcast_frame h msgType payload now
      obtain ⟨h1, k, batches, e1, e2, e3, e4, e5, e6, e7, e8, e9, e10⟩ :=
        ih (Broadcast h msgType payload now) htr (f1 ▸ hc) (f1 ▸ hnd)
          (by rw [f1, f2]; exact hopen) hroom1
      have hall : (Broadcast h msgType payload now).broadcast
            ++ accepted marshal rest (Broadcast h msgType payload now)
          = h.broadcast ++ accepted marshal (Step.publish msgType payload now :: rest) h := by
        simp only [accepted, step]
        by_cases hr : h.broadcast.length < h.broadcastCap
        · rw [Broadcast_room h _ _ _ hr]
          simp [hr]
        · rw [Broadcast_full h _ _ _ (Nat.not_lt.mp hr)]
          simp [hr]
      rw [hall] at e4 e5 e9
      rw [f2] at e3 e8 e9
      refine ⟨h1, k, batches, by simpa [run, step] using e1, e2.trans f1, e3, e4, e5, e6, ?_,
        e8, e9, e10.trans (by rw [f3])⟩
      intro hd
      exact e7 (fun s hs => hd s (List.mem_cons_of_mem _ hs))
    | broadcast =>
      cases hq : h.broadcast with
      | nil =>
        have hs : runBroadcast marshal h = some h := by simp [runBroadcast, hq]
        have hroom1 : hasRoomAlways marshal c rest h = true := by
          simpa [hasRoomAlways, step, hs, hq] using hroom
        obtain ⟨h1, k, batches, e1, e2, e3, e4, e5, e6, e7, e8, e9, e10⟩ :=
          ih h htr hc hnd hopen hroom1
        have hacc : accepted marshal (Step.broadcast :: rest) h = accepted marshal rest h := by
          simp [accepted, step, hs]
        rw [hq] at e4 e5 e9
        rw [hacc]
        refine ⟨h1, k, batches, by simpa [run, step, hs] using e1, e2, e3, e4, e5, e6, ?_,
          e8, e9, e10⟩
        intro hd
        exact e7 (fun s hs => hd s (List.mem_cons_of_mem _ hs))
      | cons m q =>
        cases hm : marshal m with
        | none =>
          have hs : runBroadcast marshal h = some { h with broadcast := q } := by
            simp [runBroadcast, hq, hm]
          have hroom1 : hasRoomAlways marshal c rest { h with broadcast := q } = true := by
            simpa [hasRoomAlways, step, hs, hq, hm] using hroom
          obtain ⟨h1, k, batches, e1, e2, e3, e4, e5, e6, e7, e8, e9, e10⟩ :=
            ih { h with broadcast := q } htr hc hnd hopen hroom1
          have hacc : accepted marshal (Step.broadcast :: rest) h
              = accepted marshal rest { h with broadcast := q } := by
            simp [accepted, step, hs]
          rw [hacc]
          refine ⟨h1, k + 1, batches, by simpa [run, step, hs] using e1, e2, e3, ?_, ?_, e6, ?_,
            e8, ?_, e10⟩
          · simpa using e4
          · simpa using e5
          · intro hd
            exact e7 (fun s hs => hd s (List.mem_cons_of_mem _ hs))
          · rw [e9]
            simp [hm]
        | some data =>
          have hs := runBroadcast_eq marshal h m q data hq hm hnd hopen
          obtain ⟨f1, _, _, f4⟩ := runBroadcast_frame marshal h _ hs
          have hr : (h.heap c).Send.hasRoom = true := by
            have := hroom
            simp only [hasRoomAlways, hq, hm, Option.isNone_some, Bool.false_or,
              Bool.and_eq_true] at this
            exact this.1
          have hroom1 : hasRoomAlways marshal c rest
              { h with broadcast := q
                       heap := deliver data h.clients h.heap
                       unregister := h.unregister ++ congested h.clients h.heap } = true := by
            have := hroom
            simp only [hasRoomAlways, step, hs, Bool.and_eq_true] at this
            exact this.2
          obtain ⟨g1, g2, _⟩ := deliver_send_mem data h.clients h.heap c hc hr
          obtain ⟨h1, k, batches, e1, e2, e3, e4, e5, e6, e7, e8, e9, e10⟩ :=
            ih { h with broadcast := q
                        heap := deliver data h.clients h.heap
                        unregister := h.unregister ++ congested h.clients h.heap }
              htr hc hnd (fun d hd => (f4 d).trans (hopen d hd)) hroom1
          have hacc : accepted marshal (Step.broadcast :: rest) h
              = accepted marshal rest
                  { h with broadcast := q
                           heap := deliver data h.clients h.heap
                           unregister := h.unregister ++ congested h.clients h.heap } := by
            simp [accepted, step, hs]
          rw [hacc]
          refine ⟨h1, k + 1, batches, by simpa [run, step, hs] using e1, e2,
            fun d => (e3 d).trans (f4 d), ?_, ?_, e6, ?_, ?_, ?_, ?_⟩
          · simpa using e4
          · simpa using e5
          · intro hd
            exact e7 (fun s hs => hd s (List.mem_cons_of_mem _ hs))
          · rw [e8]
            show (deliver data h.clients h.heap c).Conn ++ _ = _
            rw [g2]
          · rw [e9]
            show (deliver data h.clients h.heap c).Send.buf ++ _ = _
            rw [g1]
            simp [Chan.push, hm]
          · rw [e10]
            show (h.unregister ++ congested h.clients h.heap).count c = _
            rw [List.count_append, count_congested _ _ _ hnd]
            simp [hr]
    | writePump d =>
      obtain ⟨f1, f2, f3, f4, f5, f6, f7, f8⟩ := writePumpStep_frame d h
      have hroom1 : hasRoomAlways marshal c rest (writePumpStep d h) = true := by
        simpa [hasRoomAlways, step] using hroom
      obtain ⟨h1, k, batches, e1, e2, e3, e4, e5, e6, e7, e8, e9, e10⟩ :=
        ih (writePumpStep d h) htr (f1 ▸ hc) (f1 ▸ hnd)
          (by rw [f1]; exact fun x hx => (f6 x).trans (hopen x hx)) hroom1
      have hacc : accepted marshal (Step.writePump d :: rest) h
          = accepted marshal rest (writePumpStep d h) := by
        simp [accepted, step]
      rw [hacc]
      rw [f3] at e4 e5 e9
      by_cases hdc : d = c
      · subst hdc
        cases hb : (h.heap d).Send.buf with
        | nil =>
          have hw : writePumpStep d h = h := by
            rw [writePumpStep_eq, hb]
          rw [hw] at e1 e2 e3 e4 e5 e8 e9 e10 ⊢
          rw [hb] at e9
          refine ⟨h1, k, batches, by simpa [run, step, hw] using e1, e2, e3, e4, e5, e6, ?_,
            e8, by simpa using e9, e10⟩
          intro hd
          exact e7 (fun s hs => hd s (List.mem_cons_of_mem _ hs))
        | cons m ms =>
          have hw : (writePumpStep d h).heap d
              = { h.heap d with
                    Send := { (h.heap d).Send with buf := [] }
                    Conn := (h.heap d).Conn ++ [wireOf (m :: ms)] } := by
            rw [writePumpStep_eq, hb]
            simp [wireOf]
          rw [hw] at e8 e9
          refine ⟨h1, k, (m :: ms) :: batches, by simpa [run, step] using e1, e2.trans f1,
            fun x => (e3 x).trans (f6 x), e4, e5, ?_, ?_, ?_, ?_, e10.trans (by rw [f2])⟩
          · intro bt hbt
            rcases List.mem_cons.mp hbt with hbt | hbt
            · rw [hbt]; simp
            · exact e6 bt hbt
          · intro hd
            have := hd (Step.writePump d) (List.mem_cons_self _ _)
            simp [Step.drains] at this
          · rw [e8]
            simp
          · have e9b : batches.flatten ++ (h1.heap d).Send.buf
                = ((h.broadcast ++ accepted marshal rest (writePumpStep d h)).take k).filterMap
                    marshal := by
              simpa using e9
            simp only [List.flatten_cons, List.append_assoc]
            rw [e9b]
      · have hdc1 : c ≠ d := fun e => hdc e.symm
        rw [f5 c hdc1] at e8 e9
        refine ⟨h1, k, batches, by simpa [run, step] using e1, e2.trans f1,
          fun x => (e3 x).trans (f6 x), e4, e5, e6, ?_, e8, e9, e10.trans (by rw [f2])⟩
        intro hd
        exact e7 (fun s hs => hd s (List.mem_cons_of_mem _ hs))

theorem runBroadcast_length {P : Type} (marshal : Message P → Option Frame) (h h1 : Hub P)
    (hrun : runBroadcast marshal h = some h1) : h1.broadcast.length ≤ h.broadcast.length := by
  unfold runBroadcast at hrun
  cases hq : h.broadcast with
  | nil =>
    rw [hq] at hrun
    simp only [Option.some.injEq] at hrun
    subst hrun
    simp [hq]
  | cons message rest =>
    rw [hq] at hrun
    simp only at hrun
    cases hm : marshal message with
    | none =>
      rw [hm] at hrun
      simp only [Option.some.injEq] at hrun
      subst hrun
      simp
    | some data =>
      rw [hm] at hrun
      obtain ⟨_, e2, _⟩ := fanOut_frame data h.clients _ h1 hrun
      rw [e2]
      simp

theorem accepted_sublist {P : Type} (marshal : Message P → Option Frame)
    (steps : List (Step P)) (h : Hub P) :
    (accepted marshal steps h).Sublist (published steps) := by
  induction steps generalizing h with
  | nil => simp [accepted, published]
  | cons st rest ih =>
    have htail : (match step marshal st h with
        | some h1 => accepted marshal rest h1
        | none => []).Sublist (published rest) := by
      cases step marshal st h with
      | none => exact List.nil_sublist _
      | some h1 => exact ih h1
    cases st with
    | publish msgType payload now =>
      simp only [accepted, published]
      split
      · exact List.Sublist.cons₂ _ htail
      · exact List.Sublist.cons _ htail
    | register d => simpa [accepted, published] using htail
    | unregister d => simpa [accepted, published] using htail
    | broadcast => simpa [accepted, published] using htail
    | writePump d => simpa [accepted, published] using htail
    | readFrame d input => simpa [accepted, published] using htail

theorem accepted_eq_published {P : Type} (marshal : Message P → Option Frame)
    (steps : List (Step P)) (h : Hub P)
    (hsteps : ∀ st ∈ steps, Step.isTraffic st = true)
    (hnd : h.clients.Nodup) (hopen : ∀ d ∈ h.clients, (h.heap d).Send.closed = false)
    (hin : h.broadcast.length + (published steps).length ≤ h.broadcastCap) :
    accepted marshal steps h = published steps := by
  induction steps generalizing h with
  | nil => simp [accepted, published]
  | cons st rest ih =>
    have htr : ∀ s ∈ rest, Step.isTraffic s = true :=
      fun s hs => hsteps s (List.mem_cons_of_mem st hs)
    have hst := hsteps st (List.mem_cons_self st rest)
    cases st with
    | register d => simp [Step.isTraffic] at hst
    | unregister d => simp [Step.isTraffic] at hst
    | readFrame d input => simp [Step.isTraffic] at hst
    | publish msgType payload now =>
      simp only [published, List.length_cons] at hin
      have hr : h.broadcast.length < h.broadcastCap := by omega
      obtain ⟨f1, f2, _, f4⟩ := Broadcast_frame h msgType payload now
      simp only [accepted, published, step, hr, if_true, List.singleton_append, List.cons.injEq,
        true_and]
      apply ih _ htr (f1 ▸ hnd) (by rw [f1, f2]; exact hopen)
      rw [Broadcast_room h _ _ _ hr]
      simp only [List.length_append, List.length_singleton]
      omega
    | broadcast =>
      simp only [published] at hin
      obtain ⟨h1, hs⟩ := runBroadcast_total marshal h hnd hopen
      obtain ⟨e1, e2, _, e4⟩ := runBroadcast_frame marshal h h1 hs
      have hl := runBroadcast_length marshal h h1 hs
      simp only [accepted, published, step, List.nil_append, hs]
      apply ih h1 htr (e1 ▸ hnd) (by rw [e1]; exact fun d hd => (e4 d).trans (hopen d hd))
      rw [e2]
      omega
    | writePump d =>
      simp only [published] at hin
      simp only [accepted, published, step, List.nil_append]
      obtain ⟨f1, _, f3, f4, _, f6, _, _⟩ := writePumpStep_frame d h
      apply ih _ htr (f1 ▸ hnd) (by rw [f1]; exact fun x hx => (f6 x).trans (hopen x hx))
      rw [f3, f4]
      exact hin

theorem isTraffic_of_publish_or_broadcast {P : Type} (st : Step P)
    (hst : st = Step.broadcast ∨ ∃ t p n, st = Step.publish t p n) :
    Step.isTraffic st = true ∧ ∀ c, Step.drains c st = false := by
  rcases hst with hst | ⟨t, p, n, hst⟩ <;> subst hst <;> exact ⟨rfl, fun _ => rfl⟩

/-- C6. Per-session FIFO. Over any interleaving of calls of `Broadcast` and
fan-out steps of `Run`, the queue of a registered session that has room at
every fan-out holds, behind its initial content, the frames of a prefix of the
pending and accepted messages, in the order in which they were accepted, while
the other messages still wait in that order in the inbound queue; once the
inbound queue is empty the session holds the frames of all of them. Each
accepted message carries the clock reading of its `Broadcast` call, so with a
clock that does not go back the timestamps do not decrease; and as long as the
inbound queue is not full every publish is accepted. -/
theorem per_session_fifo {P : Type} (marshal : Message P → Option Frame) (h : Hub P)
    (c : ClientId) (steps : List (Step P))
    (hsteps : ∀ st ∈ steps, st = Step.broadcast ∨ ∃ t p n, st = Step.publish t p n)
    (hc : c ∈ h.clients) (hnd : h.clients.Nodup)
    (hopen : ∀ d ∈ h.clients, (h.heap d).Send.closed = false)
    (hroom : hasRoomAlways marshal c steps h = true)
    (hclock : (published steps).Pairwise (fun m n => m.Timestamp ≤ n.Timestamp)) :
    ∃ h1 k, run marshal steps h = some h1 ∧
      h1.broadcast = (h.broadcast ++ accepted marshal steps h).drop k ∧
      (h1.heap c).Send.buf
        = (h.heap c).Send.buf
          ++ ((h.broadcast ++ accepted marshal steps h).take k).filterMap marshal ∧
      (h1.broadcast = [] →
        (h1.heap c).Send.buf
          = (h.heap c).Send.buf ++ (h.broadcast ++ accepted marshal steps h).filterMap marshal) ∧
      (accepted marshal steps h).Pairwise (fun m n => m.Timestamp ≤ n.Timestamp) ∧
      (h.broadcast.length + (published steps).length ≤ h.broadcastCap →
        accepted marshal steps h = published steps) := by
  have htraffic : ∀ st ∈ steps, Step.isTraffic st = true :=
    fun st hst => (isTraffic_of_publish_or_broadcast st (hsteps st hst)).1
  have hnodrain : ∀ st ∈ steps, Step.drains c st = false :=
    fun st hst => (isTraffic_of_publish_or_broadcast st (hsteps st hst)).2 c
  obtain ⟨h1, k, batches, e1, _, _, e4, e5, _, e7, _, e9, _⟩ :=
    pipeline marshal c steps h htraffic hc hnd hopen hroom
  have hb : batches = [] := e7 hnodrain
  subst hb
  have e9b : (h1.heap c).Send.buf
      = (h.heap c).Send.buf
        ++ ((h.broadcast ++ accepted marshal steps h).take k).filterMap marshal := by
    simpa using e9
  refine ⟨h1, k, e1, e5, e9b, ?_, hclock.sublist (accepted_sublist marshal steps h),
    accepted_eq_published marshal steps h htraffic hnd hopen⟩
  intro hempty
  rw [e9b]
  rw [e5] at hempty
  have hk : (h.broadcast ++ accepted marshal steps h).length ≤ k := by
    simpa using hempty
  rw [List.take_of_length_le hk]

theorem per_session_fifo_witness :
    ∃ h1, run sampleMarshal
        [Step.publish "e1" 5 100, Step.publish "e2" 6 101, Step.publish "e3" 7 101,
          Step.broadcast, Step.broadcast, Step.broadcast] sampleIdleHub = some h1 ∧
      (h1.heap 3).Send.buf = [[5, 100], [6, 101], [7, 101]] := by
  obtain ⟨h1, k, e1, _, _, e4, _, e6⟩ :=
    per_session_fifo sampleMarshal sampleIdleHub 3
      [Step.publish "e1" 5 100, Step.publish "e2" 6 101, Step.publish "e3" 7 101,
        Step.broadcast, Step.broadcast, Step.broadcast]
      (by simp) (by decide) (by decide) (by decide) (by decide) (by decide)
  refine ⟨h1, e1, ?_⟩
  have hq : (run sampleMarshal
      [Step.publish "e1" 5 100, Step.publish "e2" 6 101, Step.publish "e3" 7 101,
        Step.broadcast, Step.broadcast, Step.broadcast] sampleIdleHub).map
        (fun g => g.broadcast.length) = some 0 := by decide
  rw [e1] at hq
  have hq1 : h1.broadcast = [] := by simpa using hq
  rw [e4 hq1, e6 (by decide)]
  decide

/-- The queue of a session whose writer never wakes. Over publishes, fan-outs
and wake-ups of other writers, the queue of `a` takes the frames of the
processed messages while it has room, and each processed frame beyond that
leaves one more pending deregistration request for `a`. -/
theorem congestion {P : Type} (marshal : Message P → Option Frame) (a : ClientId)
    (steps : List (Step P)) (h : Hub P)
    (htraffic : ∀ st ∈ steps, Step.isTraffic st = true)
    (hnodrain : ∀ st ∈ steps, Step.drains a st = false)
    (ha : a ∈ h.clients) (hnd : h.clients.Nodup)
    (hopen : ∀ d ∈ h.clients, (h.heap d).Send.closed = false) :
    ∃ h1 k, run marshal steps h = some h1 ∧
      h1.broadcast = (h.broadcast ++ accepted marshal steps h).drop k ∧
      (h1.heap a).Send.buf
        = (h.heap a).Send.buf
          ++ (((h.broadcast ++ accepted marshal steps h).take k).filterMap marshal).take
              ((h.heap a).Send.cap - (h.heap a).Send.buf.length) ∧
      h1.unregister.count a
        = h.unregister.count a
          + ((((h.broadcast ++ accepted marshal steps h).take k).filterMap marshal).length
              - ((h.heap a).Send.cap - (h.heap a).Send.buf.length)) := by
  induction steps generalizing h with
  | nil => exact ⟨h, 0, rfl, by simp [accepted], by simp, by simp⟩
  | cons st rest ih =>
    have htr : ∀ s ∈ rest, Step.isTraffic s = true :=
      fun s hs => htraffic s (List.mem_cons_of_mem st hs)
    have hnd1 : ∀ s ∈ rest, Step.drains a s = false :=
      fun s hs => hnodrain s (List.mem_cons_of_mem st hs)
    have hst := htraffic st (List.mem_cons_self st rest)
    have hst2 := hnodrain st (List.mem_cons_self st rest)
    cases st with
    | register d => simp [Step.isTraffic] at hst
    | unregister d => simp [Step.isTraffic] at hst
    | readFrame d input => simp [Step.isTraffic] at hst
    | publish msgType payload now =>
      obtain ⟨f1, f2, f3, f4⟩ := Broadcast_frame h msgType payload now
      obtain ⟨h1, k, e1, e2, e3, e4⟩ :=
        ih (Broadcast h msgType payload now) htr hnd1 (f1 ▸ ha) (f1 ▸ hnd)
          (by rw [f1, f2]; exact hopen)
      have hall : (Broadcast h msgType payload now).broadcast
            ++ accepted marshal rest (Broadcast h msgType payload now)
          = h.broadcast ++ accepted marshal (Step.publish msgType payload now :: rest) h := by
        simp only [accepted, step]
        by_cases hr : h.broadcast.length < h.broadcastCap
        · rw [Broadcast_room h _ _ _ hr]
          simp [hr]
        · rw [Broadcast_full h _ _ _ (Nat.not_lt.mp hr)]
          simp [hr]
      rw [hall] at e2 e3 e4
      rw [f2] at e3 e4
      rw [f3] at e4
      exact ⟨h1, k, by simpa [run, step] using e1, e2, e3, e4⟩
    | broadcast =>
      cases hq : h.broadcast with
      | nil =>
        have hs : runBroadcast marshal h = some h := by simp [runBroadcast, hq]
        obtain ⟨h1, k, e1, e2, e3, e4⟩ := ih h htr hnd1 ha hnd hopen
        have hacc : accepted marshal (Step.broadcast :: rest) h = accepted marshal rest h := by
          simp [accepted, step, hs]
        rw [hq] at e2 e3 e4
        rw [hacc]
        exact ⟨h1, k, by simpa [run, step, hs] using e1, e2, e3, e4⟩
      | cons m q =>
        cases hm : marshal m with
        | none =>
          have hs : runBroadcast marshal h = some { h with broadcast := q } := by
            simp [runBroadcast, hq, hm]
          obtain ⟨h1, k, e1, e2, e3, e4⟩ :=
            ih { h with broadcast := q } htr hnd1 ha hnd hopen
          have hacc : accepted marshal (Step.broadcast :: rest) h
              = accepted marshal rest { h with broadcast := q } := by
            simp [accepted, step, hs]
          rw [hacc]
          refine ⟨h1, k + 1, by simpa [run, step, hs] using e1, by simpa using e2, ?_, ?_⟩
          · rw [e3]
            simp [hm]
          · rw [e4]
            simp [hm]
        | some data =>
          have hs := runBroadcast_eq marshal h m q data hq hm hnd hopen
          obtain ⟨f1, _, _, f4⟩ := runBroadcast_frame marshal h _ hs
          obtain ⟨h1, k, e1, e2, e3, e4⟩ :=
            ih { h with broadcast := q
                        heap := deliver data h.clients h.heap
                        unregister := h.unregister ++ congested h.clients h.heap }
              htr hnd1 ha hnd (fun d hd => (f4 d).trans (hopen d hd))
          dsimp only at e2 e3 e4
          have hacc : accepted marshal (Step.broadcast :: rest) h
              = accepted marshal rest
                  { h with broadcast := q
                           heap := deliver data h.clients h.heap
                           unregister := h.unregister ++ congested h.clients h.heap } := by
            simp [accepted, step, hs]
          rw [hacc]
          have hflat : ((m :: q ++ accepted marshal rest
                  { h with broadcast := q
                           heap := deliver data h.clients h.heap
                           unregister := h.unregister ++ congested h.clients h.heap }).take
                (k + 1)).filterMap marshal
              = data :: ((q ++ accepted marshal rest
                  { h with broadcast := q
                           heap := deliver data h.clients h.heap
                           unregister := h.unregister ++ congested h.clients h.heap }).take
                k).filterMap marshal := by
            simp [hm]
          refine ⟨h1, k + 1, by simpa [run, step, hs] using e1, by simpa using e2, ?_, ?_⟩
          · rw [e3, hflat]
            cases hr : (h.heap a).Send.hasRoom with
            | true =>
              have hlt : (h.heap a).Send.buf.length < (h.heap a).Send.cap := by
                simpa [Chan.hasRoom] using hr
              rw [(deliver_send_mem data h.clients h.heap a ha hr).1]
              obtain ⟨r, hr1⟩ : ∃ r, (h.heap a).Send.cap - (h.heap a).Send.buf.length = r + 1 :=
                ⟨(h.heap a).Send.cap - (h.heap a).Send.buf.length - 1, by omega⟩
              have hr2 : (h.heap a).Send.cap - ((h.heap a).Send.buf.length + 1) = r := by omega
              simp [Chan.push, hr1, hr2]
            | false =>
              have hge : ¬ (h.heap a).Send.buf.length < (h.heap a).Send.cap := by
                simpa [Chan.hasRoom] using hr
              rw [deliver_full data h.clients h.heap a hr]
              have hz : (h.heap a).Send.cap - (h.heap a).Send.buf.length = 0 := by omega
              simp [hz]
          · rw [e4, hflat]
            rw [List.count_append, count_congested _ _ _ hnd]
            cases hr : (h.heap a).Send.hasRoom with
            | true =>
              have hlt : (h.heap a).Send.buf.length < (h.heap a).Send.cap := by
                simpa [Chan.hasRoom] using hr
              rw [(deliver_send_mem data h.clients h.heap a ha hr).1]
              simp only [Chan.push, List.length_append, List.length_singleton, List.length_cons,
                List.length_nil, Bool.true_eq_false, and_false, if_false]
              omega
            | false =>
              have hge : ¬ (h.heap a).Send.buf.length < (h.heap a).Send.cap := by
                simpa [Chan.hasRoom] using hr
              rw [deliver_full data h.clients h.heap a hr]
              simp only [ha, true_and, if_true, List.length_cons, List.length_nil]
              omega
    | writePump d =>
      have hda : a ≠ d := by
        intro e
        simp [Step.drains, e] at hst2
      obtain ⟨f1, f2, f3, f4, f5, f6, f7, f8⟩ := writePumpStep_frame d h
      obtain ⟨h1, k, e1, e2, e3, e4⟩ :=
        ih (writePumpStep d h) htr hnd1 (f1 ▸ ha) (f1 ▸ hnd)
          (by rw [f1]; exact fun x hx => (f6 x).trans (hopen x hx))
      have hacc : accepted marshal (Step.writePump d :: rest) h
          = accepted marshal rest (writePumpStep d h) := by
        simp [accepted, step]
      rw [hacc]
      rw [f3] at e2 e3 e4
      rw [f5 a hda] at e3 e4
      rw [f2] at e4
      exact ⟨h1, k, by simpa [run, step] using e1, e2, e3, e4⟩

/-- Processing the pending deregistration requests, in any order: no step
panics, no request is left, exactly the requested sessions leave the registry,
each of them that was registered has its queue closed, and no other client is
touched. -/
theorem evict_pending {P : Type} (marshal : Message P → Option Frame) (reqs : List ClientId)
    (h : Hub P) (hnd : h.clients.Nodup)
    (hinv : ∀ c, (h.heap c).Send.closed = true → c ∉ h.clients)
    (hperm : reqs.Perm h.unregister) :
    ∃ h2, run marshal (reqs.map Step.unregister) h = some h2 ∧ h2.unregister = [] ∧
      (∀ d, d ∈ h2.clients ↔ d ∈ h.clients ∧ d ∉ reqs) ∧
      (∀ d, d ∉ reqs → h2.heap d = h.heap d) ∧
      (∀ d, d ∈ reqs → d ∈ h.clients → (h2.heap d).Send.closed = true) ∧
      (∀ d, (h.heap d).Send.closed = true → (h2.heap d).Send.closed = true) := by
  induction reqs generalizing h with
  | nil =>
    refine ⟨h, rfl, List.Perm.nil_eq hperm |>.symm, ?_, fun _ _ => rfl, ?_, fun _ hd => hd⟩
    · intro d; simp
    · intro d hd; cases hd
  | cons r tl ih =>
    have hperm1 : tl.Perm (h.unregister.erase r) := by
      have := hperm.erase r
      simpa using this
    by_cases hr : r ∈ h.clients
    · have hro : (h.heap r).Send.closed = false := by
        cases hcl : (h.heap r).Send.closed with
        | false => rfl
        | true => exact absurd hr (hinv r hcl)
      have hs := runUnregister_present r h hr hro
      have hinv1 : ∀ c,
          (setSend h.heap r { (h.heap r).Send with closed := true } c).Send.closed = true →
            c ∉ h.clients.erase r := by
        intro c hc hm
        obtain ⟨hne, hmem⟩ := hnd.mem_erase_iff.mp hm
        rw [setSend_other _ _ _ _ hne] at hc
        exact hinv c hc hmem
      obtain ⟨h2, e1, e2, e3, e4, e5, e6⟩ :=
        ih { h with unregister := h.unregister.erase r
                    clients := h.clients.erase r
                    heap := setSend h.heap r { (h.heap r).Send with closed := true } }
          (hnd.erase r) hinv1 hperm1
      dsimp only at e3 e4 e5 e6
      have hrclosed : (h2.heap r).Send.closed = true := by
        apply e6
        rw [setSend_same]
      refine ⟨h2, by simpa [run, step, hs] using e1, e2, ?_, ?_, ?_, ?_⟩
      · intro d
        rw [e3 d, hnd.mem_erase_iff]
        simp only [List.mem_cons, not_or]
        tauto
      · intro d hd
        have hne : d ≠ r := fun e => hd (e ▸ List.mem_cons_self r tl)
        rw [e4 d (fun hm => hd (List.mem_cons_of_mem r hm)), setSend_other _ _ _ _ hne]
      · intro d hd hdc
        by_cases hne : d = r
        · rw [hne]; exact hrclosed
        · have hdtl : d ∈ tl := by
            rcases List.mem_cons.mp hd with e | e
            · exact absurd e hne
            · exact e
          exact e5 d hdtl ((List.mem_erase_of_ne hne).mpr hdc)
      · intro d hd
        by_cases hne : d = r
        · rw [hne]; exact hrclosed
        · apply e6
          rw [setSend_other _ _ _ _ hne]
          exact hd
    · have hs := runUnregister_absent r h hr
      obtain ⟨h2, e1, e2, e3, e4, e5, e6⟩ :=
        ih { h with unregister := h.unregister.erase r } hnd hinv hperm1
      dsimp only at e3 e4 e5 e6
      refine ⟨h2, by simpa [run, step, hs] using e1, e2, ?_, ?_, ?_, e6⟩
      · intro d
        rw [e3 d]
        simp only [List.mem_cons, not_or]
        constructor
        · rintro ⟨a1, a2⟩
          exact ⟨a1, fun e => hr (e ▸ a1), a2⟩
        · rintro ⟨a1, _, a3⟩
          exact ⟨a1, a3⟩
      · intro d hd
        exact e4 d (fun hm => hd (List.mem_cons_of_mem r hm))
      · intro d hd hdc
        have hne : d ≠ r := fun e => hr (e ▸ hdc)
        rcases List.mem_cons.mp hd with e | e
        · exact absurd e hne
        · exact e5 d e hdc

/-- C7. Overflow scenario. Sessions `a` and `b` are registered; the writer of
`a` never wakes, the queue of `b` has room at every fan-out, and `Run` has
processed every accepted publish. When the frames are more than the room of
the queue of `a`, that queue takes as many frames as it had room for and every
frame beyond leaves its own pending deregistration request for `a`, while none
is left for `b`. Whatever the order in which `Run` then processes the pending
requests, no step panics: `a` is out of the registry and its queue is closed,
once, and `b` is still registered with its queue open and untouched. What the
writer of `b` put on the wire, followed by the queue of `b`, is the initial
queue of `b` followed by the frames of all accepted publishes in order. -/
theorem overflow_evicts_once {P : Type} (marshal : Message P → Option Frame) (h : Hub P)
    (a b : ClientId) (steps : List (Step P))
    (hab : a ≠ b) (ha : a ∈ h.clients) (hb : b ∈ h.clients) (hnd : h.clients.Nodup)
    (hopen : ∀ d ∈ h.clients, (h.heap d).Send.closed = false)
    (hq : h.broadcast = []) (hu : h.unregister = [])
    (hsteps : ∀ st ∈ steps,
      st = Step.broadcast ∨ (∃ t p n, st = Step.publish t p n) ∨ st = Step.writePump b)
    (hhealthy : hasRoomAlways marshal b steps h = true)
    (hdone : allProcessed marshal steps h = true)
    (hover : (h.heap a).Send.cap - (h.heap a).Send.buf.length
      < ((accepted marshal steps h).filterMap marshal).length) :
    ∃ h1, run marshal steps h = some h1 ∧
      (h1.heap a).Send.buf
        = (h.heap a).Send.buf
          ++ ((accepted marshal steps h).filterMap marshal).take
              ((h.heap a).Send.cap - (h.heap a).Send.buf.length) ∧
      h1.unregister.count a
        = ((accepted marshal steps h).filterMap marshal).length
          - ((h.heap a).Send.cap - (h.heap a).Send.buf.length) ∧
      h1.unregister.count b = 0 ∧
      (∃ batches : List (List Frame), (∀ bt ∈ batches, bt ≠ []) ∧
        (h1.heap b).Conn = (h.heap b).Conn ++ batches.map wireOf ∧
        batches.flatten ++ (h1.heap b).Send.buf
          = (h.heap b).Send.buf ++ (accepted marshal steps h).filterMap marshal) ∧
      ∀ reqs : List ClientId, reqs.Perm h1.unregister →
        ∃ h2, run marshal (reqs.map Step.unregister) h1 = some h2 ∧
          a ∉ h2.clients ∧ (h2.heap a).Send.closed = true ∧ h2.unregister = [] ∧
          b ∈ h2.clients ∧ h2.heap b = h1.heap b ∧ (h2.heap b).Send.closed = false := by
  have htraffic : ∀ st ∈ steps, Step.isTraffic st = true := by
    intro st hst
    rcases hsteps st hst with e | ⟨t, p, n, e⟩ | e <;> subst e <;> rfl
  have hnodrain : ∀ st ∈ steps, Step.drains a st = false := by
    intro st hst
    rcases hsteps st hst with e | ⟨t, p, n, e⟩ | e <;> subst e
    · rfl
    · rfl
    · have hba : ¬ b = a := fun e => hab e.symm
      simp [Step.drains, hba]
  obtain ⟨h1, kb, batches, e1, e2, e3, _, e5, e6, _, e8, e9, e10⟩ :=
    pipeline marshal b steps h htraffic hb hnd hopen hhealthy
  obtain ⟨h1a, ka, c1, c2, c3, c4⟩ :=
    congestion marshal a steps h htraffic hnodrain ha hnd hopen
  rw [e1] at c1
  simp only [Option.some.injEq] at c1
  subst c1
  have hempty : h1.broadcast = [] := by
    have := hdone
    simp only [allProcessed, e1] at this
    simpa using this
  rw [hq, List.nil_append] at e5 e9 c2 c3 c4
  have hkb : (accepted marshal steps h).length ≤ kb := by
    rw [e5] at hempty
    simpa using hempty
  have hka : (accepted marshal steps h).length ≤ ka := by
    rw [c2] at hempty
    simpa using hempty
  rw [List.take_of_length_le hkb] at e9
  rw [List.take_of_length_le hka] at c3 c4
  rw [hu] at e10 c4
  simp only [List.count_nil, Nat.zero_add] at e10 c4
  refine ⟨h1, e1, c3, c4, e10, ⟨batches, e6, e8, e9⟩, ?_⟩
  intro reqs hperm
  have hinv : ∀ c, (h1.heap c).Send.closed = true → c ∉ h1.clients := by
    intro c hc hm
    rw [e3 c] at hc
    rw [e2] at hm
    rw [hopen c hm] at hc
    cases hc
  obtain ⟨h2, g1, g2, g3, g4, g5, _⟩ :=
    evict_pending marshal reqs h1 (e2 ▸ hnd) hinv hperm
  have hareq : a ∈ reqs := by
    apply hperm.mem_iff.mpr
    apply List.count_pos_iff.mp
    omega
  have hbreq : b ∉ reqs := by
    intro hm
    have := List.count_pos_iff.mpr (hperm.mem_iff.mp hm)
    omega
  refine ⟨h2, g1, ?_, g5 a hareq (e2 ▸ ha), g2, ?_, g4 b hbreq, ?_⟩
  · intro hm
    exact ((g3 a).mp hm).2 hareq
  · exact (g3 b).mpr ⟨e2 ▸ hb, hbreq⟩
  · rw [g4 b hbreq, e3 b]
    exact hopen b hb

theorem overflow_evicts_once_witness :
    ∃ h1, run sampleMarshal sampleOverflowSteps sampleIdleHub = some h1 ∧
      h1.unregister.count 2 = 4 ∧ h1.unregister.count 3 = 0 ∧
      ∃ h2, run sampleMarshal (h1.unregister.map Step.unregister) h1 = some h2 ∧
        2 ∉ h2.clients ∧ (h2.heap 2).Send.closed = true ∧ h2.unregister = [] ∧
        3 ∈ h2.clients ∧ (h2.heap 3).Send.closed = false := by
  obtain ⟨h1, e1, _, e3, e4, _, e6⟩ :=
    overflow_evicts_once sampleMarshal sampleIdleHub 2 3 sampleOverflowSteps
      (by decide) (by decide) (by decide) (by decide) (by decide) rfl rfl
      (by
        intro st hst
        simp only [sampleOverflowSteps, List.mem_cons, List.mem_singleton, List.not_mem_nil,
          or_false] at hst
        rcases hst with e | e | e | e | e | e | e | e | e <;> subst e <;> simp)
      (by decide) (by decide) (by decide)
  obtain ⟨h2, g1, g2, g3, g4, g5, _, g7⟩ := e6 h1.unregister (List.Perm.refl _)
  exact ⟨h1, e1, by rw [e3]; decide, e4, h2, g1, g2, g3, g4, g5, g7⟩

/-- One wake-up of `WritePump` on a queue that holds `m :: ms`, with a writer
obtained from the connection. -/
theorem writePumpWake_eq (cl : Client) (m : Frame) (ms : List Frame) (closeErr : Bool)
    (hb : cl.Send.buf = m :: ms) :
    writePumpWake cl false closeErr
      = WakeResult.wrote
          { cl with Send := { cl.Send with buf := [] }
                    Conn := if closeErr then cl.Conn
                      else cl.Conn ++ [m ++ (ms.map (fun x => 10 :: x)).flatten] }
          (m ++ (ms.map (fun x => 10 :: x)).flatten) 0 (!closeErr) := by
  obtain ⟨⟨buf, cap, closed⟩, subs, conn⟩ := cl
  simp only at hb
  subst hb
  have hd := drainLoop_eq ms.length { buf := ms, cap := cap, closed := closed } m 0 (le_refl _)
  simp only [writePumpWake, Chan.recv, hd]
  simp

/-- C8. The writer loop preserves order. When `WritePump` wakes up on a queue
that holds `m` followed by `ms`, and the connection gives it a writer, the
bytes of that one network write are `m` and then, for each message of `ms` in
queue order, a newline and the message; the inner loop receives exactly the
buffered messages, never from an empty or a closed and drained queue, and
never blocks; the queue is left empty, its capacity and closed flag as they
were. -/
theorem writePump_preserves_order (cl : Client) (m : Frame) (ms : List Frame) (closeErr : Bool)
    (hb : cl.Send.buf = m :: ms) :
    ∃ cl1, writePumpWake cl false closeErr
        = WakeResult.wrote cl1 (m ++ (ms.map (fun x => 10 :: x)).flatten) 0 (!closeErr) ∧
      cl1.Send.buf = [] ∧ cl1.Send.cap = cl.Send.cap ∧ cl1.Send.closed = cl.Send.closed ∧
      cl1.Subscriptions = cl.Subscriptions ∧
      (closeErr = false → cl1.Conn = cl.Conn ++ [m ++ (ms.map (fun x => 10 :: x)).flatten]) ∧
      drainLoop ms.length { cl.Send with buf := ms } m 0
        = some ({ cl.Send with buf := [] }, m ++ (ms.map (fun x => 10 :: x)).flatten, 0) := by
  refine ⟨_, writePumpWake_eq cl m ms closeErr hb, rfl, rfl, rfl, rfl, ?_, ?_⟩
  · intro hce
    simp [hce]
  · have hd := drainLoop_eq ms.length { cl.Send with buf := ms } m 0 (le_refl _)
    simpa using hd

theorem writePump_preserves_order_witness :
    ∃ cl1, writePumpWake
        { Send := { buf := [[1, 2], [3], [4, 5]], cap := 4, closed := true },
          Subscriptions := [], Conn := [] } false false
        = WakeResult.wrote cl1 [1, 2, 10, 3, 10, 4, 5] 0 true ∧
      cl1.Send.buf = [] ∧ cl1.Conn = [[1, 2, 10, 3, 10, 4, 5]] := by
  obtain ⟨cl1, e1, e2, _, _, _, e6, _⟩ :=
    writePump_preserves_order
      { Send := { buf := [[1, 2], [3], [4, 5]], cap := 4, closed := true },
        Subscriptions := [], Conn := [] } [1, 2] [[3], [4, 5]] false rfl
  exact ⟨cl1, e1, e2, e6 rfl⟩

/-- The fan-out loop panics as soon as one of the visited clients has a closed
queue. -/
theorem fanOut_panics {P : Type} (data : Frame) (cs : List ClientId) (g : Hub P)
    (hcl : ∃ c ∈ cs, (g.heap c).Send.closed = true) : fanOut data cs g = none := by
  induction cs generalizing g with
  | nil =>
    obtain ⟨c, hc, _⟩ := hcl
    cases hc
  | cons c0 cs ih =>
    rw [fanOut]
    cases hs : (g.heap c0).Send.trySend data with
    | panicked => rfl
    | full =>
      simp only
      apply ih
      obtain ⟨c, hc, hcc⟩ := hcl
      rcases List.mem_cons.mp hc with e | e
      · subst e
        rw [trySend_closed _ _ hcc] at hs
        cases hs
      · exact ⟨c, e, hcc⟩
    | sent ch =>
      simp only
      apply ih
      obtain ⟨c, hc, hcc⟩ := hcl
      rcases List.mem_cons.mp hc with e | e
      · subst e
        rw [trySend_closed _ _ hcc] at hs
        cases hs
      · refine ⟨c, e, ?_⟩
        by_cases hne : c = c0
        · subst hne
          rw [trySend_closed _ _ hcc] at hs
          cases hs
        · show (setSend g.heap c0 ch c).Send.closed = true
          rw [setSend_other _ _ _ _ hne]
          exact hcc

theorem deliver_send_congr (data : Frame) (cs cs1 : List ClientId)
    (heap heap1 : ClientId → Client) (hmem : ∀ c, c ∈ cs ↔ c ∈ cs1)
    (hsend : ∀ c, (heap c).Send = (heap1 c).Send) (c : ClientId) :
    (deliver data cs heap c).Send = (deliver data cs1 heap1 c).Send := by
  by_cases hc : c ∈ cs ∧ (heap c).Send.hasRoom = true
  · have hc1 : c ∈ cs1 ∧ (heap1 c).Send.hasRoom = true := ⟨(hmem c).mp hc.1, hsend c ▸ hc.2⟩
    simp only [deliver, hc, hc1, and_self, if_true]
    rw [hsend c]
  · have hc1 : ¬ (c ∈ cs1 ∧ (heap1 c).Send.hasRoom = true) :=
      fun e => hc ⟨(hmem c).mpr e.1, (hsend c).symm ▸ e.2⟩
    simp only [deliver, hc, hc1, if_false]
    exact hsend c

theorem deliver_subscriptions (data : Frame) (cs : List ClientId) (heap : ClientId → Client)
    (c : ClientId) : (deliver data cs heap c).Subscriptions = (heap c).Subscriptions := by
  unfold deliver
  split <;> rfl

/-- C9. Fan-out ignores subscriptions. Two hub states with the same sessions
in the registry, the same outbound queue for every session, the same inbound
queue and the same pending deregistration requests, whatever the subscription
sets, behave alike when `Run` processes a publish: either a registered session
has a closed queue and both panic, or both return, with the registries as they
were, the same inbound queue, the same queue for every session, the same
pending requests up to their order, and the subscription sets as they were. In
both hubs the frame of a message that can be encoded is delivered to every
registered session whose queue has room, appended at the tail of its queue,
whatever its subscription set. A control frame handled by `ReadPump` changes
neither the registry, the inbound queue, the pending requests nor any queue. -/
theorem fanout_ignores_subscriptions {P : Type} (marshal : Message P → Option Frame)
    (h h1 : Hub P) (hnd : h.clients.Nodup) (hreg : h.clients.Perm h1.clients)
    (hsend : ∀ c, (h.heap c).Send = (h1.heap c).Send)
    (hbc : h.broadcast = h1.broadcast) (hun : h.unregister.Perm h1.unregister) :
    (((∃ c ∈ h.clients, (h.heap c).Send.closed = true) ∧
        runBroadcast marshal h = none ∧ runBroadcast marshal h1 = none) ∨
      ∃ g g1, runBroadcast marshal h = some g ∧ runBroadcast marshal h1 = some g1 ∧
        g.clients = h.clients ∧ g1.clients = h1.clients ∧
        g.broadcast = g1.broadcast ∧ g.unregister.Perm g1.unregister ∧
        (∀ c, (g.heap c).Send = (g1.heap c).Send) ∧
        (∀ c, (g.heap c).Subscriptions = (h.heap c).Subscriptions) ∧
        (∀ c, (g1.heap c).Subscriptions = (h1.heap c).Subscriptions) ∧
        (∀ m rest data, h.broadcast = m :: rest → marshal m = some data →
          ∀ c ∈ h.clients, (h.heap c).Send.buf.length < (h.heap c).Send.cap →
            (g.heap c).Send.buf = (h.heap c).Send.buf ++ [data] ∧
              (g1.heap c).Send.buf = (h1.heap c).Send.buf ++ [data])) ∧
    (∀ c msg,
      (readPumpStep c (some msg) h).clients = h.clients ∧
        (readPumpStep c (some msg) h).broadcast = h.broadcast ∧
        (readPumpStep c (some msg) h).unregister = h.unregister ∧
        ∀ d, ((readPumpStep c (some msg) h).heap d).Send = (h.heap d).Send) := by
  constructor
  · have hnd1 : h1.clients.Nodup := hreg.nodup_iff.mp hnd
    cases hq : h.broadcast with
    | nil =>
      right
      have hq1 : h1.broadcast = [] := hbc ▸ hq
      refine ⟨h, h1, by simp [runBroadcast, hq], by simp [runBroadcast, hq1], rfl, rfl, hbc, hun,
        hsend, fun _ => rfl, fun _ => rfl, ?_⟩
      intro m rest data hmr
      cases hmr
    | cons m rest =>
      have hq1 : h1.broadcast = m :: rest := hbc ▸ hq
      cases hm : marshal m with
      | none =>
        right
        refine ⟨{ h with broadcast := rest }, { h1 with broadcast := rest },
          by simp [runBroadcast, hq, hm], by simp [runBroadcast, hq1, hm], rfl, rfl, rfl, hun,
          hsend, fun _ => rfl, fun _ => rfl, ?_⟩
        intro m2 rest2 data hmr hm2
        simp only [List.cons.injEq] at hmr
        rw [← hmr.1, hm] at hm2
        cases hm2
      | some data =>
        by_cases hcl : ∃ c ∈ h.clients, (h.heap c).Send.closed = true
        · left
          have hcl1 : ∃ c ∈ h1.clients, (h1.heap c).Send.closed = true := by
            obtain ⟨c, hc, hcc⟩ := hcl
            exact ⟨c, hreg.mem_iff.mp hc, by rw [← hsend c]; exact hcc⟩
          refine ⟨hcl, ?_, ?_⟩
          · simp only [runBroadcast, hq, hm]
            exact fanOut_panics data h.clients _ hcl
          · simp only [runBroadcast, hq1, hm]
            exact fanOut_panics data h1.clients _ hcl1
        · right
          have hopen : ∀ c ∈ h.clients, (h.heap c).Send.closed = false := by
            intro c hc
            cases hcc : (h.heap c).Send.closed with
            | false => rfl
            | true => exact absurd ⟨c, hc, hcc⟩ hcl
          have hopen1 : ∀ c ∈ h1.clients, (h1.heap c).Send.closed = false := by
            intro c hc
            rw [← hsend c]
            exact hopen c (hreg.mem_iff.mpr hc)
          refine ⟨_, _, runBroadcast_eq marshal h m rest data hq hm hnd hopen,
            runBroadcast_eq marshal h1 m rest data hq1 hm hnd1 hopen1, rfl, rfl, rfl, ?_, ?_,
            ?_, ?_, ?_⟩
          · apply List.Perm.append hun
            have hc : congested h1.clients h1.heap = congested h1.clients h.heap :=
              congested_congr _ _ _ (fun c _ => (hsend c).symm)
            rw [hc]
            exact hreg.filter _
          · intro c
            exact deliver_send_congr data _ _ _ _ (fun d => hreg.mem_iff) hsend c
          · intro c
            exact deliver_subscriptions data _ _ c
          · intro c
            exact deliver_subscriptions data _ _ c
          · intro m2 rest2 data2 hmr hm2 c hc hroom
            simp only [List.cons.injEq] at hmr
            rw [← hmr.1, hm] at hm2
            simp only [Option.some.injEq] at hm2
            subst hm2
            have hr : (h.heap c).Send.hasRoom = true := by simp [Chan.hasRoom, hroom]
            have hr1 : (h1.heap c).Send.hasRoom = true := by rw [← hsend c]; exact hr
            constructor
            · show (deliver data h.clients h.heap c).Send.buf = _
              rw [(deliver_send_mem data h.clients h.heap c hc hr).1]
              rfl
            · show (deliver data h1.clients h1.heap c).Send.buf = _
              rw [(deliver_send_mem data h1.clients h1.heap c (hreg.mem_iff.mp hc) hr1).1]
              rfl
  · intro c msg
    obtain ⟨e1, e2, _, e4, _⟩ := readPumpStep_frame c (some msg) h
    exact ⟨e1, e2, rfl, e4⟩

theorem fanout_ignores_subscriptions_witness :
    (sampleHub.heap 1).Subscriptions ≠ (sampleSubscribedHub.heap 1).Subscriptions ∧
      ∃ g g1, runBroadcast sampleMarshal sampleHub = some g ∧
        runBroadcast sampleMarshal sampleSubscribedHub = some g1 ∧
        g.clients = g1.clients ∧ g.unregister.Perm g1.unregister ∧
        (∀ c, (g.heap c).Send = (g1.heap c).Send) ∧
        (g.heap 1).Send.buf = [[5, 100]] ∧ (g1.heap 1).Send.buf = [[5, 100]] := by
  refine ⟨by decide, ?_⟩
  rcases (fanout_ignores_subscriptions sampleMarshal sampleHub sampleSubscribedHub
      (by decide) (List.Perm.refl _)
      (fun c => ((readPumpStep_frame 1 _ sampleHub).2.2.2.1 c).symm) rfl (List.Perm.refl _)).1
    with ⟨_, hn, _⟩ | ⟨g, g1, e1, e2, e3, e4, _, e6, e7, _, _, e10⟩
  · have : (runBroadcast sampleMarshal sampleHub).isSome = true := by decide
    rw [hn] at this
    cases this
  · obtain ⟨d1, d2⟩ := e10 { MsgType := "task_created", Payload := 5, Timestamp := 100 } []
      [5, 100] rfl rfl 1 (by decide) (by decide)
    refine ⟨g, g1, e1, e2, e3.trans e4.symm, e6, e7, ?_, ?_⟩
    · rw [d1]; decide
    · rw [d2]; decide

theorem asString_eq_none (v : Option JSON) (hv : ∀ s, v ≠ some (JSON.string s)) :
    asString v = none := by
  cases v with
  | none => rfl
  | some j =>
    cases j with
    | string s => exact absurd rfl (hv s)
    | null => rfl
    | bool b => rfl
    | number n => rfl
    | array xs => rfl
    | object kvs => rfl

/-- C10. Control frames in `ReadPump`. On a decoded frame, `"type":"subscribe"`
with a string `"id"` `t` gives the subscription set with `t` added, and
`"type":"unsubscribe"` with a string `"id"` `t` gives the set with `t` removed.
A frame whose type is missing or not a string, or is another string, or whose
id is missing or not a string, leaves the set as it was. In every case the
loop continues, and a set without duplicates stays so. -/
theorem control_frames_update_subscriptions (S : List String) (msg : List (String × JSON)) :
    (∀ t, msg.lookup "type" = some (JSON.string "subscribe") →
      msg.lookup "id" = some (JSON.string t) →
        handleFrame S msg = (if t ∈ S then S else S ++ [t]) ∧
          ∀ x, x ∈ handleFrame S msg ↔ x = t ∨ x ∈ S) ∧
    (∀ t, msg.lookup "type" = some (JSON.string "unsubscribe") →
      msg.lookup "id" = some (JSON.string t) →
        handleFrame S msg = S.filter (fun x => x ≠ t) ∧
          ∀ x, x ∈ handleFrame S msg ↔ x ≠ t ∧ x ∈ S) ∧
    ((∀ s, msg.lookup "type" ≠ some (JSON.string s)) → handleFrame S msg = S) ∧
    (∀ ty, msg.lookup "type" = some (JSON.string ty) → ty ≠ "subscribe" →
      ty ≠ "unsubscribe" → handleFrame S msg = S) ∧
    ((∀ s, msg.lookup "id" ≠ some (JSON.string s)) → handleFrame S msg = S) ∧
    readPumpIter S (some msg) = (handleFrame S msg, true) ∧
    (S.Nodup → (handleFrame S msg).Nodup) := by
  refine ⟨?_, ?_, ?_, ?_, ?_, rfl, ?_⟩
  · intro t hty hid
    have he : handleFrame S msg = (if t ∈ S then S else S ++ [t]) := by
      simp [handleFrame, hty, hid, asString]
    refine ⟨he, ?_⟩
    intro x
    rw [he]
    by_cases ht : t ∈ S
    · simp only [ht, if_true]
      constructor
      · exact Or.inr
      · rintro (e | e)
        · rw [e]; exact ht
        · exact e
    · simp only [ht, if_false, List.mem_append, List.mem_singleton]
      tauto
  · intro t hty hid
    have he : handleFrame S msg = S.filter (fun x => x ≠ t) := by
      simp [handleFrame, hty, hid, asString]
    refine ⟨he, ?_⟩
    intro x
    rw [he]
    simp only [List.mem_filter, decide_eq_true_eq]
    tauto
  · intro hty
    simp [handleFrame, asString_eq_none _ hty]
  · intro ty hty h1 h2
    simp [handleFrame, hty, asString, h1, h2]
  · intro hid
    have hn := asString_eq_none _ hid
    unfold handleFrame
    split
    · split
      · rw [hn]
      · split
        · rw [hn]
        · rfl
    · rfl
  · intro hnd
    unfold handleFrame
    split
    · split
      · split
        · split
          · exact hnd
          · rename_i hni
            exact List.Nodup.append hnd (List.nodup_singleton _) (by simpa using hni)
        · exact hnd
      · split
        · split
          · exact hnd.filter _
          · exact hnd
        · exact hnd
    · exact hnd

theorem control_frames_update_subscriptions_witness :
    handleFrame ["team-1"] [("type", JSON.string "subscribe"), ("id", JSON.string "team-2")]
        = ["team-1", "team-2"] ∧
      handleFrame ["team-1", "team-2"]
          [("id", JSON.string "team-1"), ("type", JSON.string "unsubscribe")]
        = ["team-2"] ∧
      handleFrame ["team-1"] [("type", JSON.number 3), ("id", JSON.string "team-2")]
        = ["team-1"] ∧
      handleFrame ["team-1"] [("type", JSON.string "ping"), ("id", JSON.string "team-2")]
        = ["team-1"] ∧
      handleFrame ["team-1"] [("type", JSON.string "subscribe"), ("id", JSON.null)]
        = ["team-1"] := by
  refine ⟨?_, ?_, ?_, ?_, ?_⟩
  · rw [((control_frames_update_subscriptions ["team-1"]
      [("type", JSON.string "subscribe"), ("id", JSON.string "team-2")]).1 "team-2"
        (by simp [List.lookup]) (by simp [List.lookup])).1]
    decide
  · rw [((control_frames_update_subscriptions ["team-1", "team-2"]
      [("id", JSON.string "team-1"), ("type", JSON.string "unsubscribe")]).2.1 "team-1"
        (by simp [List.lookup]) (by simp [List.lookup])).1]
    decide
  · exact (control_frames_update_subscriptions ["team-1"]
      [("type", JSON.number 3), ("id", JSON.string "team-2")]).2.2.1 (by simp [List.lookup])
  · exact (control_frames_update_subscriptions ["team-1"]
      [("type", JSON.string "ping"), ("id", JSON.string "team-2")]).2.2.2.1 "ping"
        (by simp [List.lookup]) (by decide) (by decide)
  · exact (control_frames_update_subscriptions ["team-1"]
      [("type", JSON.string "subscribe"), ("id", JSON.null)]).2.2.2.2.1 (by simp [List.lookup])

/-- The fan-out loop neither reads nor writes the inbound queue. -/
theorem fanOut_setBroadcast {P : Type} (data : Frame) (cs : List ClientId) (g : Hub P)
    (q : List (Message P)) :
    fanOut data cs { g with broadcast := q }
      = (fanOut data cs g).map (fun g1 => { g1 with broadcast := q }) := by
  induction cs generalizing g with
  | nil => simp [fanOut]
  | cons c cs ih =>
    rw [fanOut, fanOut]
    show (match (g.heap c).Send.trySend data with
      | SendResult.sent ch =>
        fanOut data cs { { g with heap := setSend g.heap c ch } with broadcast := q }
      | SendResult.full =>
        fanOut data cs { { g with unregister := g.unregister ++ [c] } with broadcast := q }
      | SendResult.panicked => none) = _
    cases (g.heap c).Send.trySend data with
    | sent ch => exact ih _
    | full => exact ih _
    | panicked => rfl

/-- Processing the head of the inbound queue does not depend on what waits
behind it. -/
theorem runBroadcast_cons {P : Type} (marshal : Message P → Option Frame) (g : Hub P)
    (x : Message P) (q : List (Message P)) :
    runBroadcast marshal { g with broadcast := x :: q }
      = (runBroadcast marshal { g with broadcast := [x] }).map
          (fun g1 => { g1 with broadcast := q }) := by
  simp only [runBroadcast]
  cases marshal x with
  | none => rfl
  | some data =>
    simp only
    have e1 := fanOut_setBroadcast data g.clients g q
    have e2 := fanOut_setBroadcast data g.clients g []
    simp only at e1 e2
    rw [e1, e2, Option.map_map]
    rfl

/-- A message that cannot be encoded, anywhere in the inbound queue, leaves no
trace once `Run` has reached and dequeued it. -/
theorem run_skips_unencodable {P : Type} (marshal : Message P → Option Frame) (m : Message P)
    (hm : marshal m = none) (pre post : List (Message P)) (steps : List (Step P)) (g : Hub P) :
    run marshal (List.replicate (pre.length + 1) Step.broadcast ++ steps)
        { g with broadcast := pre ++ m :: post }
      = run marshal (List.replicate pre.length Step.broadcast ++ steps)
          { g with broadcast := pre ++ post } := by
  induction pre generalizing g with
  | nil =>
    simp only [List.length_nil, Nat.zero_add, List.replicate_one, List.singleton_append,
      List.nil_append, List.replicate_zero, run, step, runBroadcast, hm]
    rfl
  | cons x pre ih =>
    simp only [List.length_cons, List.replicate_succ, List.cons_append, run, step]
    rw [runBroadcast_cons marshal g x (pre ++ m :: post),
      runBroadcast_cons marshal g x (pre ++ post)]
    cases runBroadcast marshal { g with broadcast := [x] } with
    | none => rfl
    | some g1 =>
      simp only [Option.map_some']
      exact ih g1

/-- C11. Serialization failure is contained. When `Run` dequeues a message that
cannot be encoded, the step returns without a panic and only removes that
message from the inbound queue: the registry, every client and its queue, and
the pending deregistration requests are as they were. Every later sequence of
steps therefore runs as from the hub in which the message was not in the
queue; and a message that cannot be encoded, wherever it waits in the inbound
queue, is skipped when `Run` works through the queue, the messages before and
behind it being processed as without it. -/
theorem serialization_failure_is_contained {P : Type} (marshal : Message P → Option Frame)
    (h : Hub P) (m : Message P) (rest : List (Message P))
    (hq : h.broadcast = m :: rest) (hm : marshal m = none) :
    (∃ h1, runBroadcast marshal h = some h1 ∧ h1.broadcast = rest ∧
      h1.clients = h.clients ∧ h1.heap = h.heap ∧ h1.unregister = h.unregister ∧
      h1.broadcastCap = h.broadcastCap) ∧
    (∀ steps, run marshal (Step.broadcast :: steps) h
      = run marshal steps { h with broadcast := rest }) ∧
    (∀ (g : Hub P) (pre post : List (Message P)) (steps : List (Step P)),
      run marshal (List.replicate (pre.length + 1) Step.broadcast ++ steps)
          { g with broadcast := pre ++ m :: post }
        = run marshal (List.replicate pre.length Step.broadcast ++ steps)
            { g with broadcast := pre ++ post }) := by
  have hs : runBroadcast marshal h = some { h with broadcast := rest } := by
    simp [runBroadcast, hq, hm]
  refine ⟨⟨_, hs, rfl, rfl, rfl, rfl, rfl⟩, ?_, ?_⟩
  · intro steps
    simp only [run, step, hs]
  · intro g pre post steps
    exact run_skips_unencodable marshal m hm pre post steps g

theorem serialization_failure_is_contained_witness :
    (∃ h1, runBroadcast sampleMarshal sampleFailingHub = some h1 ∧
      h1.broadcast = [{ MsgType := "task_created", Payload := 5, Timestamp := 100 }] ∧
      h1.clients = sampleFailingHub.clients ∧ h1.heap = sampleFailingHub.heap ∧
      h1.unregister = sampleFailingHub.unregister) ∧
    run sampleMarshal [Step.broadcast, Step.broadcast] sampleFailingHub
      = run sampleMarshal [Step.broadcast] sampleHub := by
  obtain ⟨⟨h1, e1, e2, e3, e4, e5, _⟩, e6, _⟩ :=
    serialization_failure_is_contained sampleMarshal sampleFailingHub
      { MsgType := "task_updated", Payload := 0, Timestamp := 99 }
      [{ MsgType := "task_created", Payload := 5, Timestamp := 100 }] rfl rfl
  exact ⟨⟨h1, e1, e2, e3, e4, e5⟩, e6 [Step.broadcast]⟩

/-- The hub after a client was registered, deregistered and registered again:
the client is in the registry and its queue is closed. -/
theorem run_reregister {P : Type} (marshal : Message P → Option Frame)
    (heap : ClientId → Client) (c : ClientId) (hopen : (heap c).Send.closed = false) :
    run marshal [Step.register c, Step.unregister c, Step.register c] (NewHub heap)
      = some { (NewHub heap : Hub P) with
                clients := [c]
                heap := setSend heap c { (heap c).Send with closed := true } } := by
  have h1 : runRegister c (NewHub heap : Hub P) = { (NewHub heap : Hub P) with clients := [c] } := by
    simp [runRegister, NewHub]
  have h2 : runUnregister c { (NewHub heap : Hub P) with clients := [c] }
      = some { (NewHub heap : Hub P) with
                heap := setSend heap c { (heap c).Send with closed := true } } := by
    rw [runUnregister_present c _ (by simp) hopen]
    simp [NewHub]
  have h3 : runRegister c { (NewHub heap : Hub P) with
                heap := setSend heap c { (heap c).Send with closed := true } }
      = { (NewHub heap : Hub P) with
                clients := [c]
                heap := setSend heap c { (heap c).Send with closed := true } } := by
    simp [runRegister, NewHub]
  simp only [run, step, h1, h2, h3]

/-- C12. Re-registration is not guarded. The register step puts the client in
the registry whatever the state of its queue and touches no client. So from
the hub made by `NewHub`, registering a client whose queue is open,
deregistering it and registering it again gives a hub whose registry holds a
client with a closed queue; after a publish of a message that can be encoded,
the fan-out step sends on that closed queue and panics. That sequence registers
the client twice, which is what the guarantee of no write after close
excludes. -/
theorem reregistration_is_not_guarded {P : Type} (marshal : Message P → Option Frame)
    (heap : ClientId → Client) (c : ClientId) (msgType : String) (payload : P) (now : Nat)
    (data : Frame) (hopen : (heap c).Send.closed = false)
    (hm : marshal { MsgType := msgType, Payload := payload, Timestamp := now } = some data) :
    (∀ h : Hub P, c ∈ (runRegister c h).clients ∧ (runRegister c h).heap = h.heap) ∧
    (∃ h3, run marshal [Step.register c, Step.unregister c, Step.register c] (NewHub heap)
        = some h3 ∧
      c ∈ h3.clients ∧ (h3.heap c).Send.closed = true ∧
      (h3.heap c).Send.trySend data = SendResult.panicked ∧
      ∃ h4, run marshal [Step.publish msgType payload now] h3 = some h4 ∧
        runBroadcast marshal h4 = none) ∧
    run marshal [Step.register c, Step.unregister c, Step.register c,
        Step.publish msgType payload now, Step.broadcast] (NewHub heap) = none ∧
    ¬ (registrations [Step.register c, Step.unregister c, Step.register c,
        Step.publish msgType payload now, Step.broadcast]).Nodup := by
  have hclosed : (setSend heap c { (heap c).Send with closed := true } c).Send.closed = true := by
    rw [setSend_same]
  have hpub : Broadcast { (NewHub heap : Hub P) with
                clients := [c]
                heap := setSend heap c { (heap c).Send with closed := true } }
        msgType payload now
      = { (NewHub heap : Hub P) with
                clients := [c]
                broadcast := [{ MsgType := msgType, Payload := payload, Timestamp := now }]
                heap := setSend heap c { (heap c).Send with closed := true } } := by
    simp [Broadcast, NewHub]
  have hfan : runBroadcast marshal { (NewHub heap : Hub P) with
                clients := [c]
                broadcast := [{ MsgType := msgType, Payload := payload, Timestamp := now }]
                heap := setSend heap c { (heap c).Send with closed := true } } = none := by
    simp only [runBroadcast, hm]
    exact fanOut_panics data [c] _ ⟨c, List.mem_singleton_self c, hclosed⟩
  refine ⟨?_, ⟨_, run_reregister marshal heap c hopen, List.mem_singleton_self c, hclosed,
    trySend_closed _ _ hclosed, _, by simp only [run, step, hpub], hfan⟩, ?_, ?_⟩
  · intro h
    refine ⟨?_, rfl⟩
    simp only [runRegister]
    split
    · assumption
    · simp
  · have hpre := run_reregister marshal heap c hopen
    simp only [run, step] at hpre ⊢
    cases hs : runUnregister c (runRegister c (NewHub heap : Hub P)) with
    | none => rfl
    | some g =>
      rw [hs] at hpre
      simp only [Option.some.injEq] at hpre
      simp only [hpre, hpub, hfan]
  · simp [registrations]

theorem reregistration_is_not_guarded_witness :
    (∃ h3, run sampleMarshal [Step.register 1, Step.unregister 1, Step.register 1]
        (NewHub sampleHeap) = some h3 ∧ 1 ∈ h3.clients ∧ (h3.heap 1).Send.closed = true) ∧
      run sampleMarshal [Step.register 1, Step.unregister 1, Step.register 1,
        Step.publish "task_created" 5 100, Step.broadcast] (NewHub sampleHeap) = none := by
  obtain ⟨_, ⟨h3, e1, e2, e3, _⟩, e4, _⟩ :=
    reregistration_is_not_guarded sampleMarshal sampleHeap 1 "task_created" 5 100 [5, 100]
      (by decide) rfl
  exact ⟨⟨h3, e1, e2, e3⟩, e4⟩

end Websocket

namespace Handlers

theorem scanValid_iff (status : String) (l : List String) :
    scanValid status l = true ↔ status ∈ l := by
  induction l with
  | nil => simp [scanValid]
  | cons s rest ih =>
    simp only [scanValid, List.mem_cons]
    split
    · rename_i h; simp [h]
    · rename_i h
      rw [ih]
      constructor
      · exact Or.inr
      · rintro (e | e)
        · exact absurd e.symm h
        · exact e

theorem TransitionTask_update_iff (c s : String) :
    TransitionTask (some c) s = Response.update s ↔ (s = c ∨ s ∈ transitionsFrom c) := by
  unfold TransitionTask
  simp only []
  cases hv : scanValid s (transitionsFrom c) with
  | true =>
    have := (scanValid_iff s _).mp hv
    simp [this]
  | false =>
    have hn : ¬ s ∈ transitionsFrom c := fun hm => by
      rw [(scanValid_iff s _).mpr hm] at hv; cases hv
    by_cases hsc : s = c
    · simp [hsc]
    · simp [hsc, hn]

theorem TransitionTask_rejects (c s : String)
    (hne : TransitionTask (some c) s ≠ Response.update s) :
    TransitionTask (some c) s = Response.badRequest := by
  unfold TransitionTask at hne ⊢
  simp only [] at hne ⊢
  split
  · rfl
  · rename_i h
    rw [if_neg h] at hne
    exact absurd rfl hne

theorem specListed_of_not_key (c s : String)
    (hkey : ∀ k ∈ validTransitions.map Prod.fst, c ≠ k) : specListed c s = false := by
  have b1 : (c == "todo") = false := by simpa using hkey "todo" (by simp [validTransitions])
  have b2 : (c == "backlog") = false := by
    simpa using hkey "backlog" (by simp [validTransitions])
  have b3 : (c == "next") = false := by simpa using hkey "next" (by simp [validTransitions])
  have b4 : (c == "progress") = false := by
    simpa using hkey "progress" (by simp [validTransitions])
  have b5 : (c == "review") = false := by simpa using hkey "review" (by simp [validTransitions])
  have b6 : (c == "blocked") = false := by
    simpa using hkey "blocked" (by simp [validTransitions])
  simp [specListed, b1, b2, b3, b4, b5, b6]

/-- The table read through the map index agrees with the table as the
specification lists it. -/
theorem transitionsFrom_mem (c s : String) :
    s ∈ transitionsFrom c ↔ specListed c s = true := by
  by_cases h1 : c = "todo"
  · subst h1; simp [transitionsFrom, validTransitions, List.lookup, specListed]
  by_cases h2 : c = "backlog"
  · subst h2; simp [transitionsFrom, validTransitions, List.lookup, specListed]
  by_cases h3 : c = "next"
  · subst h3; simp [transitionsFrom, validTransitions, List.lookup, specListed]
  by_cases h4 : c = "progress"
  · subst h4; simp [transitionsFrom, validTransitions, List.lookup, specListed, or_assoc]
  by_cases h5 : c = "review"
  · subst h5; simp [transitionsFrom, validTransitions, List.lookup, specListed]
  by_cases h6 : c = "blocked"
  · subst h6; simp [transitionsFrom, validTransitions, List.lookup, specListed]
  by_cases h7 : c = "done"
  · subst h7; simp [transitionsFrom, validTransitions, List.lookup, specListed]
  have b1 : (c == "todo") = false := by simpa using h1
  have b2 : (c == "backlog") = false := by simpa using h2
  have b3 : (c == "next") = false := by simpa using h3
  have b4 : (c == "progress") = false := by simpa using h4
  have b5 : (c == "review") = false := by simpa using h5
  have b6 : (c == "blocked") = false := by simpa using h6
  have b7 : (c == "done") = false := by simpa using h7
  simp [transitionsFrom, validTransitions, List.lookup, specListed, b1, b2, b3, b4, b5, b6, b7]

/-- C13. Status-transition validation in `TransitionTask`. For a task found
with current status `c` and a requested status `s`, the handler goes on to the
update exactly when `s` equals `c` or `s` is listed for `c` in the table
(todo to progress or backlog, backlog to todo or next, next to progress,
progress to review, blocked or todo, review to done or progress, blocked to
todo or progress, done to nothing), and answers 400 otherwise. So a task whose
status is `done`, or is no key of the table, can only be moved to its own
status, and `done` is accepted only from `review` or from `done` itself. -/
theorem transition_validation (c s : String) :
    (TransitionTask (some c) s = Response.update s ↔ (s = c ∨ specListed c s = true)) ∧
    (TransitionTask (some c) s ≠ Response.update s →
      TransitionTask (some c) s = Response.badRequest) ∧
    (c = "done" → (TransitionTask (some c) s = Response.update s ↔ s = c)) ∧
    ((∀ k ∈ validTransitions.map Prod.fst, c ≠ k) →
      (TransitionTask (some c) s = Response.update s ↔ s = c)) ∧
    (TransitionTask (some c) "done" = Response.update "done" ↔ (c = "done" ∨ c = "review")) := by
  have hiff : ∀ c s : String,
      TransitionTask (some c) s = Response.update s ↔ (s = c ∨ specListed c s = true) := by
    intro c s
    rw [TransitionTask_update_iff, transitionsFrom_mem]
  refine ⟨hiff c s, TransitionTask_rejects c s, ?_, ?_, ?_⟩
  · intro hc
    subst hc
    rw [hiff]
    simp [specListed]
  · intro hkey
    rw [hiff, specListed_of_not_key c s hkey]
    simp
  · rw [hiff]
    simp only [specListed]
    constructor
    · rintro (e | e)
      · exact Or.inl e.symm
      · simp at e
        exact Or.inr e
    · rintro (e | e)
      · exact Or.inl e.symm
      · right
        subst e
        decide

theorem transition_validation_witness :
    TransitionTask (some "review") "done" = Response.update "done" ∧
      TransitionTask (some "todo") "done" = Response.badRequest ∧
      TransitionTask (some "done") "done" = Response.update "done" ∧
      TransitionTask (some "archived") "archived" = Response.update "archived" ∧
      TransitionTask (some "archived") "todo" = Response.badRequest :=
  ⟨(transition_validation "review" "done").1.mpr (Or.inr (by decide)),
    (transition_validation "todo" "done").2.1 (by decide),
    ((transition_validation "done" "done").2.2.1 rfl).mpr rfl,
    ((transition_validation "archived" "archived").2.2.2.1 (by decide)).mpr rfl,
    (transition_validation "archived" "todo").2.1 (by decide)⟩

end Handlers
